import Mathlib

/-!
# Chromesthat: LED protocol encoder, pitch mapping and note detection

A shallow embedding of the core of the repository:

* `src/src/led_strip.{h,cpp}` and `src/LED_Drivers/led_strip.cpp`
  (`Pixel`, the constructor, the destructor, `set_pixel` of either file,
  `clear`, and `show` with its encoder, identical in both files);
* `src/src/main.cpp` (`freq_to_leds`, `fft_idx_to_note`, `detect_notes`, the
  peak search of `fft_calculate_magnitudes`, the teardown of `main`, and the
  frame hand-off between `audioCallback` and the polling loop);
* `src/AudioTest/audio_in.cpp` (the polling loop).

Conventions of the embedding.

* `uint8_t` values are natural numbers; a pixel is well formed when its three
  components are below 256.
* `std::vector<T>` is `List T`; `push_back` appends at the end.
* `float` / `double` values are exact rationals.  The only transcendental
  computation of the program, `round(12.0 * log2(x))`, is embedded as the exact
  nearest integer of `12 * log₂ x` (see `round_12_log2`).
* C++ `/` and `%` on `int` are `Int.tdiv` and `Int.tmod` (truncation toward zero).
* The bus is the list of buffers handed to `write`; what each `write` returns
  is a parameter.  Code without defined behaviour has the result `none`.
* The two threads are run under an explicit schedule, one statement (one
  sample of a copy) per step, with the mutex as their only synchronisation.
-/

set_option maxRecDepth 100000

namespace Chromesthat

/-! ## Data model (`led_strip.h`) -/

/-- The C++ `struct Pixel { uint8_t r, g, b; }`. -/
structure Pixel where
  r : Nat
  g : Nat
  b : Nat
deriving DecidableEq, Repr

/-- A pixel whose components fit in a `uint8_t`. -/
def Pixel.wf (p : Pixel) : Prop := p.r < 256 ∧ p.g < 256 ∧ p.b < 256

instance (p : Pixel) : Decidable p.wf := by
  unfold Pixel.wf; infer_instance

/-- The data members of `class Pi5NeoCpp` that the encoder reads: `num_leds`
and the `pixels` vector (the file descriptor is the bus, kept outside). -/
structure Pi5NeoCpp where
  num_leds : Nat
  pixels : List Pixel
deriving DecidableEq, Repr

/-- The state the constructor builds: `pixels.resize(num_leds, {0, 0, 0})`. -/
def Pi5NeoCpp.init (num : Nat) : Pi5NeoCpp :=
  { num_leds := num, pixels := List.replicate num ⟨0, 0, 0⟩ }

/-! ## `Pi5NeoCpp::show` -/

/-- The table `const uint8_t spi_pattern[2] = {0b100, 0b110}`. -/
def spi_pattern : List Nat := [0b100, 0b110]

/-- The innermost loop of the last block of `show`:
`for (int i = 7; i >= 0; --i) spi_buffer.push_back(spi_pattern[(c >> i) & 1]);`. -/
def push_color (spi_buffer : List Nat) (c : Nat) : List Nat :=
  [7, 6, 5, 4, 3, 2, 1, 0].foldl
    (fun buf i => buf ++ [spi_pattern.getD ((c >>> i) &&& 1) 0]) spi_buffer

/-- The body of `for (const auto& p : pixels)` in the last block of `show`:
`uint8_t colors[3] = {p.g, p.r, p.b}; for (uint8_t c : colors) ...`. -/
def push_pixel (spi_buffer : List Nat) (p : Pixel) : List Nat :=
  [p.g, p.r, p.b].foldl push_color spi_buffer

/-- The inner loop of the first block of `show` ("a simpler, byte-oriented
way"): one `push_back(0b110)` or `push_back(0b100)` per colour bit. -/
def first_push_color (spi_buffer : List Nat) (c : Nat) : List Nat :=
  [7, 6, 5, 4, 3, 2, 1, 0].foldl
    (fun buf i => if (c >>> i) &&& 1 ≠ 0 then buf ++ [0b110] else buf ++ [0b100]) spi_buffer

/-- The body of the first `for (const auto& pixel : pixels)` loop of `show`. -/
def first_push_pixel (spi_buffer : List Nat) (p : Pixel) : List Nat :=
  [p.g, p.r, p.b].foldl first_push_color spi_buffer

/-- The method `std::vector::resize(n)` on a byte vector: truncate or pad with zeros. -/
def resize (v : List Nat) (n : Nat) : List Nat :=
  v.take n ++ List.replicate (n - v.length) 0

/-- The byte vector `spi_buffer` at the point where `show` calls `write`,
following the function statement by statement: the first encoding loop, the
`clear()`, the `resize(num_leds * 9)` (whose loop computes `pattern` and stores
nothing), the second `clear()`, and the final encoding loop. -/
def show_spi_buffer (s : Pi5NeoCpp) : List Nat :=
  let buf₁ : List Nat := s.pixels.foldl first_push_pixel []
  let buf₂ : List Nat := (fun _ => []) buf₁
  let buf₃ : List Nat := resize buf₂ (s.num_leds * 9)
  let buf₄ : List Nat := (fun _ => []) buf₃
  s.pixels.foldl push_pixel buf₄

/-- The method `show` against a bus whose `write` reports `written buf` bytes
for the buffer `buf`: the runtime error is raised exactly when that number
differs from `spi_buffer.size()`. -/
def Pi5NeoCpp.show_ (s : Pi5NeoCpp) (written : List Nat → Int) : Except String Unit :=
  let spi_buffer := show_spi_buffer s
  if written spi_buffer ≠ (spi_buffer.length : Int) then
    Except.error "Error: Failed to write to SPI device."
  else
    Except.ok ()

/-! ## Reading a byte stream as physical bits -/

/-- The eight bits of a byte as they leave the bus, most significant first. -/
def bitsMSB (byte : Nat) : List Bool :=
  [7, 6, 5, 4, 3, 2, 1, 0].map (fun i => byte.testBit i)

/-- A byte buffer read as one continuous most-significant-bit-first stream. -/
def bitStream (bytes : List Nat) : List Bool :=
  bytes.flatMap bitsMSB

/-- The colour bytes of a pixel buffer in wire order `g0, r0, b0, g1, r1, b1, ...`. -/
def grb_bytes (pixels : List Pixel) : List Nat :=
  pixels.flatMap (fun p => [p.g, p.r, p.b])

/-- The logical protocol bits of a pixel buffer: per pixel green, red, blue,
each byte most significant bit first. -/
def logicalBits (pixels : List Pixel) : List Bool :=
  bitStream (grb_bytes pixels)

/-- The three physical bits that the protocol prescribes for one logical bit:
`1,1,0` for a logical 1 and `1,0,0` for a logical 0. -/
def physicalBits (b : Bool) : List Bool :=
  if b then [true, true, false] else [true, false, false]

/-- The physical bit stream the protocol prescribes for a pixel buffer: the
concatenation of the three-bit patterns of all logical bits, with no padding. -/
def protocolStream (pixels : List Pixel) : List Bool :=
  (logicalBits pixels).flatMap physicalBits

/-- Specification side (the decoder of the round-trip property, which is a test
device and not code of the program).  One group of three physical bits decodes to a
logical bit: `110 -> 1`, `100 -> 0`, anything else is not a protocol symbol. -/
def decodeTriple (x y z : Bool) : Option Bool :=
  match x, y, z with
  | true, true, false => some true
  | true, false, false => some false
  | _, _, _ => none

/-- Specification side: the physical stream is cut into groups of three
bits, each decoded by `decodeTriple`; leftover bits make the stream invalid. -/
def decodeLogical : List Bool → Option (List Bool)
  | [] => some []
  | x :: y :: z :: rest =>
    match decodeTriple x y z, decodeLogical rest with
    | some b, some bs => some (b :: bs)
    | _, _ => none
  | _ => none

/-- The value of eight bits, most significant first. -/
def byteOfBits (bits : List Bool) : Nat :=
  bits.foldl (fun acc b => 2 * acc + (if b then 1 else 0)) 0

/-- Specification side: logical bits are regrouped eight per byte, most
significant bit first; leftover bits make the stream invalid. -/
def packBytes : List Bool → Option (List Nat)
  | [] => some []
  | b7 :: b6 :: b5 :: b4 :: b3 :: b2 :: b1 :: b0 :: rest =>
    match packBytes rest with
    | some bs => some (byteOfBits [b7, b6, b5, b4, b3, b2, b1, b0] :: bs)
    | none => none
  | _ => none

/-- Specification side: the round-trip decoder, from the bytes handed to
the bus back to the colour bytes. -/
def decodeStream (bytes : List Nat) : Option (List Nat) :=
  match decodeLogical (bitStream bytes) with
  | some bits => packBytes bits
  | none => none

/-- The one-LED strip holding the red pixel `(r, g, b) = (255, 0, 0)`. -/
def redStrip : Pi5NeoCpp := { num_leds := 1, pixels := [⟨255, 0, 0⟩] }

/-- The colour channel `[g, r, b][j]` of a pixel, in wire order. -/
def channel (q : Pixel) (j : Nat) : Nat := [q.g, q.r, q.b].getD j 0

/-! ## Closed form of the encoder, used to reason about `show` -/

/-- The symbol pushed for one colour bit. -/
def symbol (c i : Nat) : Nat := if c.testBit i then 0b110 else 0b100

/-- The 8 symbols of one colour byte, most significant bit first. -/
def encodeColor (c : Nat) : List Nat :=
  [7, 6, 5, 4, 3, 2, 1, 0].map (symbol c)

/-- The 24 symbols of one pixel, in the order green, red, blue. -/
def encodePixel (p : Pixel) : List Nat :=
  encodeColor p.g ++ encodeColor p.r ++ encodeColor p.b

/-! ## Constants of `main.cpp` -/

/-- The constant `const int FRAMES_PER_BUF = 2048`. -/
def FRAMES_PER_BUF : Int := 2048

/-- The constant `const int SAMPLE_RATE = 44100`. -/
def SAMPLE_RATE : Int := 44100

/-- The global `int N_out = FRAMES_PER_BUF / 2 + 1`. -/
def N_out : Int := Int.tdiv FRAMES_PER_BUF 2 + 1

/-- The preprocessor constant `MIN_MAGNITUDE`, defined as 45. -/
def MIN_MAGNITUDE : Int := 45

/-- The local `int min_freq = 70` of `fft_calculate_magnitudes` and `detect_notes`. -/
def min_freq : Int := 70

/-- The local `int min_index = (min_freq * FRAMES_PER_BUF) / SAMPLE_RATE`, computed
by the same expression in `fft_calculate_magnitudes` and in `detect_notes`. -/
def min_index : Int := Int.tdiv (min_freq * FRAMES_PER_BUF) SAMPLE_RATE

/-- The vector `noteNames` of `freq_to_leds` and `fft_idx_to_note`: the twelve
names from "C" (index 0) to "B" (index 11). -/
def noteNames : List String :=
  ["C", "C#", "D", "D#", "E", "F"] ++ ["F#", "G", "G#", "A", "A#", "B"]

/-- The constant `A4_FREQUENCY = 440.0`. -/
def A4_FREQUENCY : ℚ := 440

/-- The constant `A4_MIDI_NUMBER = 69`. -/
def A4_MIDI_NUMBER : Int := 69

/-! ## The pitch computation of `freq_to_leds` and `fft_idx_to_note` -/

/-- Binary logarithm of a natural number, rounded down, by repeated halving;
`fuel` bounds the number of halvings. -/
def log2Aux : Nat → Nat → Nat
  | 0, _ => 0
  | fuel + 1, n => if 2 ≤ n then log2Aux fuel (n / 2) + 1 else 0

/-- The value `⌊log₂ n⌋` for `n ≥ 1` (and 0 for `n = 0`); `n` halvings always suffice. -/
def floorLog2Nat (n : Nat) : Nat := log2Aux n n

/-- The value `⌈log₂ m⌉` for `m ≥ 1` (and 0 for `m = 0`). -/
def ceilLog2Nat (m : Nat) : Nat := if m ≤ 1 then 0 else floorLog2Nat (m - 1) + 1

/-- The value `⌊log₂ q⌋` of a positive rational `q`: `⌊log₂ ⌊q⌋⌋` when `q ≥ 1`,
and `-⌈log₂ ⌈1/q⌉⌉` when `q < 1`. -/
def floorLog2 (q : ℚ) : Int :=
  if q.den ≤ q.num.toNat then (floorLog2Nat (q.num.toNat / q.den) : Int)
  else -(ceilLog2Nat ((q.den + q.num.toNat - 1) / q.num.toNat) : Int)

/-- The library composition `round(12.0 * log2(x))` converted to `int`, in exact
arithmetic: the integer `n` nearest to `12 * log₂ x`.  Since
`n - 1/2 ≤ 12 * log₂ x < n + 1/2` means `2 ^ (2 n - 1) ≤ x ^ 24 < 2 ^ (2 n + 1)`,
`n` is `⌊log₂ (x ^ 24)⌋` halved and rounded up.  For `x ≤ 0` the logarithm is
`-inf` or NaN and the conversion to `int` has no defined value: `none`. -/
def round_12_log2 (x : ℚ) : Option Int :=
  if 0 < x then some ((floorLog2 (x ^ 24) + 1) / 2) else none

/-- The lines
`double semitones_from_a4 = 12.0 * log2(frequency / A4_FREQUENCY);`
`int midi_note = static_cast<int>(round(semitones_from_a4)) + A4_MIDI_NUMBER;`
shared by `freq_to_leds` and `fft_idx_to_note`. -/
def midi_note (frequency : ℚ) : Option Int :=
  (round_12_log2 (frequency / A4_FREQUENCY)).map (fun n => n + A4_MIDI_NUMBER)

/-- The value of the local `note_index` of `freq_to_leds(pixels, frequency)`:
`midi_note % 12` with the C++ remainder.  There is none when the function
returns at its guard `frequency == 0.0`, or when `midi_note` is undefined. -/
def freq_to_leds_note_index (frequency : ℚ) : Option Int :=
  if frequency = 0 then none
  else (midi_note frequency).map (fun m => Int.tmod m 12)

/-- The function `fft_idx_to_note`: `float freq = (fft_idx * SAMPLE_RATE) / FRAMES_PER_BUF`
is a division of two `int`s, so the frequency is truncated to a whole number of
hertz before the pitch computation; the result is `midi_note % 12`. -/
def fft_idx_to_note (fft_idx : Int) : Option Int :=
  let freq : ℚ := ((Int.tdiv (fft_idx * SAMPLE_RATE) FRAMES_PER_BUF : Int) : ℚ)
  (midi_note freq).map (fun m => Int.tmod m 12)

/-- The exact centre frequency of bin `i`, `i * sample_rate / frame_size`, in hertz. -/
def bin_frequency (i : Int) : ℚ := (i : ℚ) * (SAMPLE_RATE : ℚ) / (FRAMES_PER_BUF : ℚ)

/-- Specification side: the normalised pitch class `((midi mod 12) + 12) mod 12`
of a MIDI number. -/
def pitch_class (midi : Int) : Int := Int.tmod (Int.tmod midi 12 + 12) 12

/-- Specification side: the pitch class of the exact frequency of bin `i`. -/
def exact_bin_note (i : Int) : Option Int :=
  (midi_note (bin_frequency i)).map pitch_class

/-! ## The detection loop of `detect_notes` -/

/-- The two local arrays `bool notes_detected[12]` and `double notes_magnitude[12]`. -/
structure NoteArrays where
  notes_detected : List Bool
  notes_magnitude : List ℚ
deriving DecidableEq

/-- The arrays after the initialisation loop of `detect_notes`. -/
def NoteArrays.init : NoteArrays :=
  { notes_detected := List.replicate 12 false, notes_magnitude := List.replicate 12 0 }

/-- One iteration of `for (int i = min_index; i < N_out; i++)` in `detect_notes`:
`if (fft_magnitude[i] > MIN_MAGNITUDE) { note_idx = fft_idx_to_note(i);`
`notes_detected[note_idx] = true; notes_magnitude[note_idx] = fft_magnitude[i]; }`.
The comparison is between a `double` and the `int` 45 converted to `double`.
A write outside the 12-element arrays, or an undefined `note_idx`, is `none`. -/
def detect_step (fft_magnitude : Int → ℚ) (st : NoteArrays) (i : Int) : Option NoteArrays :=
  if fft_magnitude i > (MIN_MAGNITUDE : ℚ) then
    match fft_idx_to_note i with
    | some note_idx =>
      if 0 ≤ note_idx ∧ note_idx < 12 then
        some { notes_detected := st.notes_detected.set note_idx.toNat true,
               notes_magnitude := st.notes_magnitude.set note_idx.toNat (fft_magnitude i) }
      else none
    | none => none
  else some st

/-- The values taken by `i` in `for (int i = min_index; i < N_out; i++)`, in order. -/
def loop_indices : List Int :=
  (List.range (N_out - min_index).toNat).map (fun (k : Nat) => min_index + (k : Int))

/-- The detection loop of `detect_notes` run on the array `fft_magnitude`. -/
def detect_notes_loop (fft_magnitude : Int → ℚ) : Option NoteArrays :=
  loop_indices.foldlM (detect_step fft_magnitude) NoteArrays.init

/-- Bin `i` qualifies for pitch class `c`: it is examined by the loop, its
magnitude exceeds the threshold and `fft_idx_to_note` maps it to `c`. -/
def Qualifies (fft_magnitude : Int → ℚ) (c : Nat) (i : Int) : Prop :=
  min_index ≤ i ∧ i < N_out ∧ fft_magnitude i > (MIN_MAGNITUDE : ℚ) ∧
    fft_idx_to_note i = some (c : Int)

/-- A spectrum whose bins 20 (magnitude 100) and 40 (magnitude 50) are the only
ones above the threshold; both are mapped to pitch class 9. -/
def twoPeaks (i : Int) : ℚ := if i = 20 then 100 else if i = 40 then 50 else 0

/-- The invariant of the detection loop after the bins `seen` have been
visited: both arrays keep their 12 entries; a class is marked exactly when a
visited bin above the threshold is mapped to it; and the magnitude stored for a
marked class is that of the greatest such bin. -/
def LoopInv (mag : Int → ℚ) (seen : List Int) (st : NoteArrays) : Prop :=
  st.notes_detected.length = 12 ∧ st.notes_magnitude.length = 12 ∧
  ∀ c : Nat, c < 12 →
    (st.notes_detected.getD c false = true ↔
      ∃ i ∈ seen, mag i > (MIN_MAGNITUDE : ℚ) ∧ fft_idx_to_note i = some (c : Int)) ∧
    (st.notes_detected.getD c false = true →
      ∃ i ∈ seen, mag i > (MIN_MAGNITUDE : ℚ) ∧ fft_idx_to_note i = some (c : Int) ∧
        st.notes_magnitude.getD c 0 = mag i ∧
        ∀ j ∈ seen, mag j > (MIN_MAGNITUDE : ℚ) → fft_idx_to_note j = some (c : Int) → j ≤ i)

/-- A spectrum whose only bin above the threshold is bin 20, by half a unit. -/
def faintPeak (i : Int) : ℚ := if i = 20 then 91 / 2 else 0

/-- The spectrum `faintPeak` with large magnitudes added at the bins 0, 1 and 2,
which lie below `min_index`. -/
def faintPeakWithHum (i : Int) : ℚ :=
  if i = 0 ∨ i = 1 ∨ i = 2 then 1000 else faintPeak i

/-! ## `Pi5NeoCpp::set_pixel` and `Pi5NeoCpp::clear` -/

/-- The class invariant set up by the constructor: `pixels` has `num_leds` entries. -/
def Pi5NeoCpp.wf (s : Pi5NeoCpp) : Prop := s.pixels.length = s.num_leds

instance (s : Pi5NeoCpp) : Decidable s.wf := by
  unfold Pi5NeoCpp.wf; infer_instance

/-- The method `set_pixel` of `src/src/led_strip.cpp`.  The three assignments
`r = r*intensity` with `float intensity = 0.5` multiply a `uint8_t` by one half
and convert the product back to `uint8_t`, which drops the fraction; the pixel
is written only under the guard `index < num_leds`. -/
def Pi5NeoCpp.set_pixel (s : Pi5NeoCpp) (index r g b : Nat) : Pi5NeoCpp :=
  let r := r / 2
  let g := g / 2
  let b := b / 2
  if index < s.num_leds then { s with pixels := s.pixels.set index ⟨r, g, b⟩ } else s

/-- The method `set_pixel` of `src/LED_Drivers/led_strip.cpp`: the same guard,
no intensity scaling. -/
def Pi5NeoCpp.set_pixel_LED_Drivers (s : Pi5NeoCpp) (index r g b : Nat) : Pi5NeoCpp :=
  if index < s.num_leds then { s with pixels := s.pixels.set index ⟨r, g, b⟩ } else s

/-- The method `clear`: `for (uint32_t i = 0; i < num_leds; ++i) pixels[i] = {0, 0, 0};`. -/
def Pi5NeoCpp.clear (s : Pi5NeoCpp) : Pi5NeoCpp :=
  { s with pixels := (List.range s.num_leds).foldl (fun px i => px.set i ⟨0, 0, 0⟩) s.pixels }

/-! ## The strip together with its bus -/

/-- A method call on the strip object, as seen from its caller. -/
inductive Call where
  | clear
  | show_
deriving DecidableEq, Repr

/-- The strip object together with what it has done so far: the buffers handed
to the bus `write`, in order, and the `clear` / `show` calls made on it. -/
structure LedWorld where
  strip : Pi5NeoCpp
  writes : List (List Nat)
  calls : List Call
deriving DecidableEq, Repr

/-- The constructor `Pi5NeoCpp(num, device)`: `pixels.resize(num_leds, {0, 0, 0})`,
then `open` and the three `ioctl` calls, whose success is given by `open_ok`
and `config_ok`; either failure throws.  The constructor body contains no call
of `clear` or `show` and no `write`. -/
def Pi5NeoCpp.construct (num : Nat) (open_ok config_ok : Bool) : Except String LedWorld :=
  let strip := Pi5NeoCpp.init num
  if !open_ok then
    Except.error "Error: Cannot open SPI device. Check permissions or if SPI is enabled."
  else if !config_ok then
    Except.error "Error: Cannot configure SPI device."
  else
    Except.ok { strip := strip, writes := [], calls := [] }

/-- A call of `clear()` on the strip. -/
def LedWorld.clear (w : LedWorld) : LedWorld :=
  { w with strip := w.strip.clear, calls := w.calls ++ [Call.clear] }

/-- A call of `show()` on the strip: the encoded buffer is handed to `write`
once; `reply k buf` is what the `k`-th `write` of the run (counted from 0)
returns for the buffer `buf`.  The second component is the exception, if any. -/
def LedWorld.show_ (w : LedWorld) (reply : Nat → List Nat → Int) :
    LedWorld × Except String Unit :=
  ({ w with writes := w.writes ++ [show_spi_buffer w.strip], calls := w.calls ++ [Call.show_] },
    w.strip.show_ (reply w.writes.length))

/-- The destructor `~Pi5NeoCpp()`: `try { clear(); show(); } catch (...) { }`
and the `close` of the descriptor; an exception of `show` is suppressed. -/
def LedWorld.destruct (w : LedWorld) (reply : Nat → List Nat → Int) : LedWorld :=
  (w.clear.show_ reply).1

/-- The end of `main` in `src/src/main.cpp`, from the exit of the polling loop:
the stream is stopped and closed, then `pixels.clear(); pixels.show();`, and at
`return 0` the object `pixels` is destroyed.  An exception of the `show` in
`main` is not caught there: the run ends with it and the destructor is not
reached. -/
def main_teardown (w : LedWorld) (reply : Nat → List Nat → Int) :
    LedWorld × Except String Int :=
  match w.clear.show_ reply with
  | (w₁, Except.error e) => (w₁, Except.error e)
  | (w₁, Except.ok _) => (w₁.destruct reply, Except.ok 0)

/-! ## The LED part of `detect_notes`, and `freq_to_leds` -/

/-- The global `const int num_leds = 48` of `main.cpp`. -/
def num_leds : Nat := 48

/-- The table `notes_RGB[12][3]`, one `{r, g, b}` row per pitch class. -/
def notes_RGB : List (List Nat) :=
  [[0, 0, 255], [0, 128, 255], [0, 255, 255], [0, 255, 128], [0, 255, 0], [128, 255, 0],
   [255, 255, 0], [255, 128, 0], [255, 0, 0], [255, 0, 128], [255, 0, 255], [128, 0, 255]]

/-- The entry `notes_RGB[note_idx][j]`. -/
def notes_RGB_at (note_idx j : Nat) : Nat := (notes_RGB.getD note_idx []).getD j 0

/-- The local `int leds_per_note = 4` of `detect_notes`. -/
def leds_per_note : Nat := 4

/-- The inner loop of the LED part of `detect_notes`:
`for (int i = 0; i < leds_per_note; i++) pixels.set_pixel((note_idx*leds_per_note)+i, ...)`. -/
def light_note (pixels : Pi5NeoCpp) (note_idx : Nat) : Pi5NeoCpp :=
  (List.range leds_per_note).foldl
    (fun px i => px.set_pixel (note_idx * leds_per_note + i)
      (notes_RGB_at note_idx 0) (notes_RGB_at note_idx 1) (notes_RGB_at note_idx 2)) pixels

/-- The outer loop of the LED part of `detect_notes`:
`for (int note_idx = 0; note_idx < 12; note_idx++) if (notes_detected[note_idx]) ...`. -/
def light_notes (notes_detected : List Bool) (pixels : Pi5NeoCpp) : Pi5NeoCpp :=
  (List.range 12).foldl
    (fun px note_idx => if notes_detected.getD note_idx false then light_note px note_idx else px)
    pixels

/-- The function `detect_notes(pixels)` on the spectrum `fft_magnitude`:
`pixels.clear()`, the detection loop, the LED loops, `pixels.show()`, `return 1`.
The result is `none` when the detection loop has no defined result. -/
def detect_notes (w : LedWorld) (fft_magnitude : Int → ℚ) (reply : Nat → List Nat → Int) :
    Option (LedWorld × Except String Int) :=
  let w₁ := w.clear
  match detect_notes_loop fft_magnitude with
  | none => none
  | some st =>
    let w₂ := { w₁ with strip := light_notes st.notes_detected w₁.strip }
    let (w₃, r) := w₂.show_ reply
    some (w₃, r.map (fun _ => 1))

/-- The function `freq_to_leds(pixels, frequency)`: the guard
`if (frequency == 0.0) return 1;`, then the pitch computation, the reads
`noteNames[note_index]` and `notes_RGB[note_index]`, the loop
`for (int i = 0; i < num_leds; ++i) pixels.set_pixel(i, ...)`, `pixels.show()`
and `return 1`.  The result is `none` where the C++ has no defined behaviour:
`log2` of a non-positive quotient converted to `int`, or a `note_index` outside
the 12-entry tables. -/
def freq_to_leds (w : LedWorld) (frequency : ℚ) (reply : Nat → List Nat → Int) :
    Option (LedWorld × Except String Int) :=
  if frequency = 0 then some (w, Except.ok 1)
  else
    match midi_note frequency with
    | none => none
    | some midi =>
      let note_index := Int.tmod midi 12
      if 0 ≤ note_index ∧ note_index < 12 then
        let strip := (List.range num_leds).foldl
          (fun px i => px.set_pixel i (notes_RGB_at note_index.toNat 0)
            (notes_RGB_at note_index.toNat 1) (notes_RGB_at note_index.toNat 2)) w.strip
        let (w₁, r) := ({ w with strip := strip }).show_ reply
        some (w₁, r.map (fun _ => 1))
      else none

/-- The reply of a bus on which every `write` transfers the whole buffer. -/
def fullWrite (_k : Nat) (buf : List Nat) : Int := (buf.length : Int)

/-- The reply of a bus on which every `write` fails with `-1`. -/
def failedWrite (_k : Nat) (_buf : List Nat) : Int := -1

/-- The world that `main` holds after `Pi5NeoCpp pixels(num_leds, device)` succeeded. -/
def startWorld : LedWorld := { strip := Pi5NeoCpp.init num_leds, writes := [], calls := [] }

/-! ## The frame hand-off, run sequentially -/

/-- The state of the hand-off between `audioCallback` and the main loop: the
shared `audio_buffer`, the flag `new_data`, and the frames the main loop has
taken for analysis so far. -/
structure Exchange where
  audio_buffer : List ℚ
  new_data : Int
  analysed : List (List ℚ)
deriving DecidableEq

/-- The function `audioCallback` on a frame `input` of `nBufferFrames` samples
(at most the size of `audio_buffer`): the `std::copy` into the shared buffer,
then `new_data = 1`. -/
def audioCallback (input : List ℚ) (e : Exchange) : Exchange :=
  { e with audio_buffer := input ++ e.audio_buffer.drop input.length, new_data := 1 }

/-- One pass of the body of `while (keepRunning)` in `src/src/main.cpp`:
`if (new_data) { fft_calculate_magnitudes(); detect_notes(pixels); }`.  The
shared buffer is copied and analysed; the only assignment `new_data = 0` of the
file is inside the commented-out block, so the flag is left as it is. -/
def main_poll (e : Exchange) : Exchange :=
  if e.new_data ≠ 0 then { e with analysed := e.analysed ++ [e.audio_buffer] } else e

/-- One pass of the body of `while (keepRunning)` in `src/AudioTest/audio_in.cpp`:
the buffer is taken (written to the file) and then `new_data = 0`. -/
def audio_test_poll (e : Exchange) : Exchange :=
  if e.new_data ≠ 0 then
    { e with analysed := e.analysed ++ [e.audio_buffer], new_data := 0 }
  else e

/-! ## The peak search of `fft_calculate_magnitudes` -/

/-- The conversion of a `double` to `int` in `max_mag = fft_magnitude[i]`: the
fraction is dropped (toward zero); a value outside the range of `int` has no
defined result. -/
def double_to_int (q : ℚ) : Option Int :=
  let t : Int := if 0 ≤ q then ⌊q⌋ else ⌈q⌉
  if -2147483648 ≤ t ∧ t ≤ 2147483647 then some t else none

/-- One iteration of the magnitude loop of `fft_calculate_magnitudes`, on the
pair `(max_mag, max_idx)`, both of type `int`, where `fft_magnitude i` is the
value that `fft_magnitude[i] = std::sqrt(...)` has just stored:
`if (fft_magnitude[i] > max_mag) { max_mag = fft_magnitude[i]; max_idx = i; }`. -/
def magnitude_step (fft_magnitude : Int → ℚ) (st : Int × Int) (i : Int) : Option (Int × Int) :=
  if fft_magnitude i > (st.1 : ℚ) then
    (double_to_int (fft_magnitude i)).map (fun max_mag => (max_mag, i))
  else some st

/-- The function `fft_calculate_magnitudes` from its magnitude loop on, given the
magnitudes the loop computes: `max_mag = 0`, `max_idx = 0`, the loop over
`min_index .. N_out - 1`, then `if (max_mag < MIN_MAGNITUDE) return 0;` and
`return max_idx;`. -/
def fft_calculate_magnitudes (fft_magnitude : Int → ℚ) : Option Int :=
  (loop_indices.foldlM (magnitude_step fft_magnitude) ((0 : Int), (0 : Int))).map
    (fun st => if st.1 < MIN_MAGNITUDE then 0 else st.2)

/-- A spectrum with magnitude 50.75 at bin 3 and 50.5 at bin 4, zero elsewhere. -/
def closePeaks (i : Int) : ℚ := if i = 3 then 203 / 4 else if i = 4 then 101 / 2 else 0

/-! ## The frame hand-off between the two threads -/

/-- Where the capture thread stands in `audioCallback`: `idle` before the
`buffer_mutex.lock()` of the next callback; `copying k` inside `std::copy`,
holding the mutex, with `k` samples copied; `flag` after
`buffer_mutex.unlock()` and before `new_data = 1`. -/
inductive CapturePC where
  | idle
  | copying (k : Nat)
  | flag
deriving DecidableEq, Repr

/-- Where the main thread stands in its polling loop: `polling` at the test
`if (new_data)`; `locking` in `fft_calculate_magnitudes` at
`buffer_mutex.lock()`; `copying k` in the copy loop of
`fft_calculate_magnitudes`, holding the mutex, with `k` samples copied into
`fft_in`. -/
inductive MainPC where
  | polling
  | locking
  | copying (k : Nat)
deriving DecidableEq, Repr

/-- The capture thread holds the mutex. -/
def CapturePC.holds : CapturePC → Bool
  | CapturePC.copying _ => true
  | _ => false

/-- The main thread holds the mutex. -/
def MainPC.holds : MainPC → Bool
  | MainPC.copying _ => true
  | _ => false

/-- The state shared by the two threads, with their positions: the buffers
`audio_buffer` and `fft_in`, the flag `new_data`, the mutex `buffer_mutex`, the
number of callbacks whose copy is complete, and the content `fft_in` had each
time the main thread finished its copy. -/
structure Threads where
  audio_buffer : List ℚ
  fft_in : List ℚ
  new_data : Int
  locked : Bool
  capture : CapturePC
  main : MainPC
  published : Nat
  consumed : List (List ℚ)
deriving DecidableEq, Repr

/-- The thread that takes the next step. -/
inductive Thread where
  | capture
  | main
deriving DecidableEq, Repr

/-- The next step of the capture thread, which is publishing the frame
`frames s.published` of `n` samples: `lock()` (no progress while the mutex is
taken), the copy one sample per step, `unlock()`, then `new_data = 1`. -/
def capture_step (frames : Nat → List ℚ) (n : Nat) (s : Threads) : Threads :=
  match s.capture with
  | CapturePC.idle =>
    if s.locked then s else { s with locked := true, capture := CapturePC.copying 0 }
  | CapturePC.copying k =>
    if k < n then
      { s with audio_buffer := s.audio_buffer.set k ((frames s.published).getD k 0),
               capture := CapturePC.copying (k + 1) }
    else
      { s with locked := false, capture := CapturePC.flag, published := s.published + 1 }
  | CapturePC.flag => { s with new_data := 1, capture := CapturePC.idle }

/-- The next step of the main thread: the test `if (new_data)`, then in
`fft_calculate_magnitudes` the `lock()` (no progress while the mutex is taken),
the loop `fft_in[i] = audio_buffer[i]` one sample per step, and `unlock()`,
after which the content of `fft_in` goes to the analysis. -/
def main_step (n : Nat) (s : Threads) : Threads :=
  match s.main with
  | MainPC.polling => if s.new_data ≠ 0 then { s with main := MainPC.locking } else s
  | MainPC.locking =>
    if s.locked then s else { s with locked := true, main := MainPC.copying 0 }
  | MainPC.copying k =>
    if k < n then
      { s with fft_in := s.fft_in.set k (s.audio_buffer.getD k 0),
               main := MainPC.copying (k + 1) }
    else
      { s with locked := false, main := MainPC.polling,
               consumed := s.consumed ++ [s.fft_in] }

/-- One step of the thread `t`. -/
def thread_step (frames : Nat → List ℚ) (n : Nat) (s : Threads) (t : Thread) : Threads :=
  match t with
  | Thread.capture => capture_step frames n s
  | Thread.main => main_step n s

/-- The state reached from `s` under the interleaving `schedule`. -/
def run_threads (frames : Nat → List ℚ) (n : Nat) (schedule : List Thread) (s : Threads) :
    Threads :=
  schedule.foldl (thread_step frames n) s

/-- The state at start-up: `audio_buffer` is zero-filled, `fft_in` holds
whatever `fftw_malloc` returned, `new_data` is 0 and the mutex is free. -/
def Threads.init (n : Nat) (fft_in₀ : List ℚ) : Threads :=
  { audio_buffer := List.replicate n 0, fft_in := fft_in₀, new_data := 0, locked := false,
    capture := CapturePC.idle, main := MainPC.polling, published := 0, consumed := [] }

/-- The invariant of the hand-off. -/
structure HandoffInv (frames : Nat → List ℚ) (n : Nat) (s : Threads) : Prop where
  len_buffer : s.audio_buffer.length = n
  len_fft : s.fft_in.length = n
  lock : s.locked = (s.capture.holds || s.main.holds)
  exclusive : ¬ (s.capture.holds = true ∧ s.main.holds = true)
  capture_prefix : ∀ k, s.capture = CapturePC.copying k →
    k ≤ n ∧ ∀ i, i < k → s.audio_buffer[i]? = (frames s.published)[i]?
  buffer_whole : s.capture.holds = false → 1 ≤ s.published →
    s.audio_buffer = frames (s.published - 1)
  flag_set : s.new_data ≠ 0 → 1 ≤ s.published
  capture_flag : s.capture = CapturePC.flag → 1 ≤ s.published
  main_locking : s.main = MainPC.locking → 1 ≤ s.published
  main_prefix : ∀ k, s.main = MainPC.copying k →
    1 ≤ s.published ∧ k ≤ n ∧ ∀ i, i < k → s.fft_in[i]? = (frames (s.published - 1))[i]?
  log : ∃ js : List Nat, js.Pairwise (· ≤ ·) ∧ (∀ j ∈ js, j < s.published) ∧
    s.consumed = js.map frames

/-- Two-sample frames: frame `j` is `[j, j + 1/2]`. -/
def rampFrames (j : Nat) : List ℚ := [(j : ℚ), (j : ℚ) + 1 / 2]

/-- An interleaving in which the main thread starts polling early, the capture
thread publishes frame 0, the main thread waits for the mutex while frame 1 is
being copied, copies frame 1, and copies it a second time. -/
def sampleSchedule : List Thread :=
  [Thread.main, Thread.capture, Thread.capture, Thread.capture, Thread.capture,
   Thread.capture, Thread.main, Thread.capture, Thread.capture, Thread.main,
   Thread.capture, Thread.capture, Thread.main, Thread.main, Thread.main, Thread.main,
   Thread.capture, Thread.main, Thread.main, Thread.main, Thread.main, Thread.main]

/-! ## The MIDI number inside `fft_idx_to_note` -/

/-- The value of the local `midi_note` of `fft_idx_to_note(fft_idx)`, computed
from the truncated frequency `(fft_idx * SAMPLE_RATE) / FRAMES_PER_BUF`. -/
def fft_idx_to_note_midi (fft_idx : Int) : Option Int :=
  midi_note ((Int.tdiv (fft_idx * SAMPLE_RATE) FRAMES_PER_BUF : Int) : ℚ)

/-! ## Reading the pixels back from the buffer written by `show` -/

/-- The colour byte whose eight symbols, most significant bit first, are
`symbols`: the symbol `0b110` stands for a set bit. -/
def decodeColor (symbols : List Nat) : Nat :=
  byteOfBits (symbols.map (fun x => x == 0b110))

/-- The pixel whose 24 symbols are `symbols`: green, then red, then blue. -/
def decodePixel (symbols : List Nat) : Pixel :=
  { r := decodeColor ((symbols.drop 8).take 8),
    g := decodeColor (symbols.take 8),
    b := decodeColor ((symbols.drop 16).take 8) }

/-- The first `count` pixels of a buffer of symbols, 24 symbols per pixel. -/
def recover_chunks : Nat → List Nat → List Pixel
  | 0, _ => []
  | count + 1, buf => decodePixel (buf.take 24) :: recover_chunks count (buf.drop 24)

/-- The pixel buffer read back from the bytes that `show` hands to `write`. -/
def recover_pixels (spi_buffer : List Nat) : List Pixel :=
  recover_chunks (spi_buffer.length / 24) spi_buffer

/-- A strip of two LEDs, white and dim blue. -/
def twoStrip : Pi5NeoCpp := { num_leds := 2, pixels := [⟨255, 255, 255⟩, ⟨0, 0, 1⟩] }

/-! # Theorems -/

/-! ## Lemmas on `show` -/

theorem and_one_of_shift (c i : Nat) :
    (c >>> i) &&& 1 = if c.testBit i then 1 else 0 := by
  rw [Nat.and_one_is_mod, Nat.shiftRight_eq_div_pow, Nat.testBit_to_div_mod]
  rcases Nat.mod_two_eq_zero_or_one (c / 2 ^ i) with h | h <;> simp [h]

theorem pattern_eq_symbol (c i : Nat) :
    spi_pattern.getD ((c >>> i) &&& 1) 0 = symbol c i := by
  rw [and_one_of_shift]
  unfold symbol spi_pattern
  split <;> rfl

theorem push_color_eq (buf : List Nat) (c : Nat) :
    push_color buf c = buf ++ encodeColor c := by
  simp only [push_color, encodeColor, List.foldl, pattern_eq_symbol, List.map,
    List.append_assoc, List.cons_append, List.nil_append]

theorem push_pixel_eq (buf : List Nat) (p : Pixel) :
    push_pixel buf p = buf ++ encodePixel p := by
  simp [push_pixel, encodePixel, push_color_eq]

theorem foldl_push_pixel (ps : List Pixel) (buf : List Nat) :
    ps.foldl push_pixel buf = buf ++ ps.flatMap encodePixel := by
  induction ps generalizing buf with
  | nil => simp
  | cons p ps ih => simp [ih, push_pixel_eq]

theorem show_spi_buffer_eq (s : Pi5NeoCpp) :
    show_spi_buffer s = s.pixels.flatMap encodePixel := by
  simp [show_spi_buffer, foldl_push_pixel]

theorem encodePixel_length (p : Pixel) : (encodePixel p).length = 24 := by
  simp [encodePixel, encodeColor]

theorem flatMap_encodePixel_length (ps : List Pixel) :
    (ps.flatMap encodePixel).length = 24 * ps.length := by
  induction ps with
  | nil => simp
  | cons p ps ih =>
    simp only [List.flatMap_cons, List.length_append, ih, encodePixel_length, List.length_cons]
    omega

theorem show_spi_buffer_length (s : Pi5NeoCpp) :
    (show_spi_buffer s).length = 24 * s.pixels.length := by
  rw [show_spi_buffer_eq, flatMap_encodePixel_length]

theorem getElem?_flatMap_chunks {α β : Type} (f : α → List β) (n : Nat)
    (hf : ∀ a, (f a).length = n) (l : List α) (p k : Nat) (hk : k < n) :
    (l.flatMap f)[n * p + k]? = (l[p]?).bind (fun a => (f a)[k]?) := by
  induction l generalizing p with
  | nil => simp
  | cons a l ih =>
    cases p with
    | zero =>
      have h : k < (f a).length := by rw [hf]; exact hk
      simp [List.getElem?_append_left h]
    | succ p =>
      have h : (f a).length ≤ n * (p + 1) + k := by
        rw [hf, Nat.mul_succ]; omega
      have e : n * (p + 1) + k - (f a).length = n * p + k := by
        rw [hf, Nat.mul_succ]; omega
      simp only [List.flatMap_cons, List.getElem?_append_right h, e, ih,
        List.getElem?_cons_succ]

theorem encodePixel_getElem? (q : Pixel) (k : Nat) (hk : k < 24) :
    (encodePixel q)[k]? = some (symbol (channel q (k / 8)) (7 - k % 8)) := by
  interval_cases k <;> rfl

/-! ## The claims on `show` -/

/-- C1 (evaluation of the code): for one LED holding the red pixel
`(255, 0, 0)`, the buffer that `show` hands to `write` has 24 bytes, one per
colour bit, and not the `9 * num_leds = 9` bytes of the packed encoding. -/
theorem show_red_buffer_has_24_bytes :
    (show_spi_buffer redStrip).length = 24 ∧
      (show_spi_buffer redStrip).length ≠ 9 * redStrip.num_leds := by
  decide

/-- C2 (evaluation of the code): for one LED holding the red pixel
`(255, 0, 0)`, the bytes written by `show`, read most significant bit first,
are not the concatenation of the three-bit patterns: the written stream starts
`0,0,0,0,0,1,0,0` (the byte `0b100`), the protocol stream starts
`1,0,0,1,0,0,1,0`. -/
theorem show_red_stream_is_not_packed :
    bitStream (show_spi_buffer redStrip) ≠ protocolStream redStrip.pixels ∧
      (bitStream (show_spi_buffer redStrip)).take 8 =
        [false, false, false, false, false, true, false, false] ∧
      (protocolStream redStrip.pixels).take 8 =
        [true, false, false, true, false, false, true, false] := by
  decide

/-- C3: the buffer written by `show` holds 24 symbols per pixel, pixels in
index order; the pattern of a logical 1 is `spi_pattern[1] = 0b110`, that of a
logical 0 is `spi_pattern[0] = 0b100`; symbol `k` of pixel `p` is `0b110`
exactly when bit `7 - k % 8` of channel `[g, r, b][k / 8]` of pixel `p` is set,
and `0b100` exactly when that bit is clear. -/
theorem show_encodes_grb_msb_first (s : Pi5NeoCpp) :
    (show_spi_buffer s).length = 24 * s.pixels.length ∧
      spi_pattern.getD 1 0 = 0b110 ∧ spi_pattern.getD 0 0 = 0b100 ∧
      ∀ p k : Nat, p < s.pixels.length → k < 24 →
        (show_spi_buffer s)[24 * p + k]? =
            some (if (channel (s.pixels.getD p ⟨0, 0, 0⟩) (k / 8)).testBit (7 - k % 8)
              then 0b110 else 0b100) ∧
          ((show_spi_buffer s)[24 * p + k]? = some 0b110 ↔
            (channel (s.pixels.getD p ⟨0, 0, 0⟩) (k / 8)).testBit (7 - k % 8) = true) ∧
          ((show_spi_buffer s)[24 * p + k]? = some 0b100 ↔
            (channel (s.pixels.getD p ⟨0, 0, 0⟩) (k / 8)).testBit (7 - k % 8) = false) := by
  refine ⟨show_spi_buffer_length s, rfl, rfl, ?_⟩
  intro p k hp hk
  have h : (show_spi_buffer s)[24 * p + k]? =
      some (if (channel (s.pixels.getD p ⟨0, 0, 0⟩) (k / 8)).testBit (7 - k % 8)
        then 0b110 else 0b100) := by
    rw [show_spi_buffer_eq, getElem?_flatMap_chunks encodePixel 24 encodePixel_length _ p k hk]
    simp only [List.getD_eq_getElem?_getD, List.getElem?_eq_getElem hp, Option.some_bind,
      Option.getD_some, encodePixel_getElem? _ k hk]
    rfl
  refine ⟨h, ?_, ?_⟩
  · rw [h]
    cases (channel (s.pixels.getD p ⟨0, 0, 0⟩) (k / 8)).testBit (7 - k % 8) <;> simp
  · rw [h]
    cases (channel (s.pixels.getD p ⟨0, 0, 0⟩) (k / 8)).testBit (7 - k % 8) <;> simp

/-- Witness of C3: on the red one-LED strip, symbol 8 of pixel 0 (the top bit
of the red channel, which is set) is `0b110`. -/
theorem show_encodes_grb_msb_first_witness :
    (show_spi_buffer redStrip)[24 * 0 + 8]? =
        some (if (channel (redStrip.pixels.getD 0 ⟨0, 0, 0⟩) (8 / 8)).testBit (7 - 8 % 8)
          then 0b110 else 0b100) ∧
      ((show_spi_buffer redStrip)[24 * 0 + 8]? = some 0b110 ↔
        (channel (redStrip.pixels.getD 0 ⟨0, 0, 0⟩) (8 / 8)).testBit (7 - 8 % 8) = true) ∧
      ((show_spi_buffer redStrip)[24 * 0 + 8]? = some 0b100 ↔
        (channel (redStrip.pixels.getD 0 ⟨0, 0, 0⟩) (8 / 8)).testBit (7 - 8 % 8) = false) :=
  (show_encodes_grb_msb_first redStrip).2.2.2 0 8 (by decide) (by decide)

/-- C4 (evaluation of the code): for one LED holding the red pixel
`(255, 0, 0)`, decoding the physical bit stream of the bytes written by `show`
does not give back the colour bytes `0, 255, 0`: the first three physical bits
are `0,0,0`, which is no protocol symbol, and the stream has 192 physical bits
where three colour bytes take 72.  The decoder does give the colour bytes back
on the 9 bytes that pack the protocol stream of the same pixel. -/
theorem show_red_round_trip_fails :
    decodeStream (show_spi_buffer redStrip) = none ∧
      decodeStream (show_spi_buffer redStrip) ≠ some (grb_bytes redStrip.pixels) ∧
      (bitStream (show_spi_buffer redStrip)).length = 192 ∧
      (packBytes (protocolStream redStrip.pixels)).bind decodeStream =
        some (grb_bytes redStrip.pixels) := by
  decide

/-! ## The exact model of `round(12.0 * log2(x))` -/

theorem log2Aux_eq (fuel : Nat) : ∀ n : Nat, n ≤ fuel → log2Aux fuel n = Nat.log 2 n := by
  induction fuel with
  | zero =>
    intro n hn
    have : n = 0 := by omega
    subst this
    simp [log2Aux]
  | succ fuel ih =>
    intro n hn
    by_cases h2 : 2 ≤ n
    · have hdiv : n / 2 ≤ fuel := by omega
      rw [log2Aux, if_pos h2, ih _ hdiv, Nat.log_of_one_lt_of_le (by decide) h2]
    · rw [log2Aux, if_neg h2, Nat.log_of_lt (by omega)]

theorem floorLog2Nat_eq (n : Nat) : floorLog2Nat n = Nat.log 2 n :=
  log2Aux_eq n n (Nat.le_refl n)

theorem ceilLog2Nat_eq (m : Nat) : ceilLog2Nat m = Nat.clog 2 m := by
  unfold ceilLog2Nat
  by_cases h : m ≤ 1
  · rw [if_pos h, Nat.clog_of_right_le_one h]
  · rw [if_neg h, floorLog2Nat_eq]
    apply eq_of_forall_ge_iff
    intro y
    rw [← Nat.le_pow_iff_clog_le (by decide), Nat.succ_le_iff,
      ← Nat.lt_pow_iff_log_lt (by decide) (by omega)]
    omega

theorem floorLog2_eq (q : ℚ) (hq : 0 < q) : floorLog2 q = Int.log 2 q := by
  have hnum : 0 < q.num := Rat.num_pos.2 hq
  have hden : 0 < q.den := q.den_pos
  obtain ⟨a, ha⟩ : ∃ a : Nat, q.num = (a : Int) := ⟨q.num.toNat, by omega⟩
  have ha0 : 0 < a := by omega
  have hq' : q = (a : ℚ) / (q.den : ℚ) := by
    have := (Rat.num_div_den q).symm
    rw [ha, Int.cast_natCast] at this
    exact this
  have haq : (0 : ℚ) < (a : ℚ) := by exact_mod_cast ha0
  have hdq : (0 : ℚ) < (q.den : ℚ) := by exact_mod_cast hden
  unfold floorLog2
  rw [ha, Int.toNat_ofNat]
  by_cases hle : q.den ≤ a
  · have h1 : (1 : ℚ) ≤ q := by
      rw [hq', one_le_div hdq]; exact_mod_cast hle
    rw [if_pos hle, Int.log_of_one_le_right 2 h1, floorLog2Nat_eq]
    congr 2
    conv_rhs => rw [hq']
    rw [Nat.floor_div_eq_div]
  · have h1 : q ≤ 1 := by
      rw [hq', div_le_one hdq]
      have : a ≤ q.den := by omega
      exact_mod_cast this
    rw [if_neg hle, Int.log_of_right_le_one 2 h1, ceilLog2Nat_eq]
    congr 3
    apply eq_of_forall_ge_iff
    intro y
    rw [Nat.ceil_le]
    conv_rhs => rw [hq']
    have key : (q.den + a - 1) / a ≤ y ↔ q.den ≤ y * a := by
      rw [← Nat.lt_succ_iff, Nat.div_lt_iff_lt_mul ha0, Nat.succ_mul]
      omega
    rw [inv_div, div_le_iff₀ haq, key]
    exact_mod_cast Iff.rfl

/-- The integer returned by `round_12_log2 x` is the one whose half-open
semitone interval contains `x`: `2 ^ (2 n - 1) ≤ x ^ 24 < 2 ^ (2 n + 1)`. -/
theorem round_12_log2_bounds (x : ℚ) (hx : 0 < x) :
    ∃ n : Int, round_12_log2 x = some n ∧
      (2 : ℚ) ^ (2 * n - 1) ≤ x ^ 24 ∧ x ^ 24 < (2 : ℚ) ^ (2 * n + 1) := by
  have hp : 0 < x ^ 24 := pow_pos hx 24
  refine ⟨(floorLog2 (x ^ 24) + 1) / 2, by simp [round_12_log2, hx], ?_⟩
  rw [floorLog2_eq _ hp]
  have h1 := Int.zpow_log_le_self (b := 2) (by decide) hp
  have h2 := Int.lt_zpow_succ_log_self (R := ℚ) (b := 2) (by decide) (x ^ 24)
  simp only [Nat.cast_ofNat] at h1 h2
  constructor
  · exact le_trans (zpow_le_zpow_right₀ (by norm_num) (by omega)) h1
  · exact lt_of_lt_of_le h2 (zpow_le_zpow_right₀ (by norm_num) (by omega))

theorem padicValRat_two_zpow (k : Int) : padicValRat 2 ((2 : ℚ) ^ k) = k := by
  haveI : Fact (Nat.Prime 2) := ⟨Nat.prime_two⟩
  have h2 : padicValRat 2 (2 : ℚ) = 1 := by
    have := padicValRat.self (p := 2) (by decide)
    simpa using this
  obtain ⟨m, rfl | rfl⟩ := Int.eq_nat_or_neg k
  · rw [zpow_natCast, padicValRat.pow (by norm_num), h2]; simp
  · rw [zpow_neg, zpow_natCast, padicValRat.inv, padicValRat.pow (by norm_num), h2]; simp

theorem pow_24_ne_two_zpow_odd (x : ℚ) (hx : 0 < x) (n : Int) :
    x ^ 24 ≠ (2 : ℚ) ^ (2 * n - 1) := by
  haveI : Fact (Nat.Prime 2) := ⟨Nat.prime_two⟩
  intro h
  have h1 : padicValRat 2 (x ^ 24) = 24 * padicValRat 2 x := by
    rw [padicValRat.pow (ne_of_gt hx)]
    norm_num
  rw [h, padicValRat_two_zpow] at h1
  omega

/-- The integer returned by `round_12_log2 x` is the integer nearest to
`12 * log₂ x` over the reals; the distance is strictly below one half, so the
result does not depend on how `round` breaks ties. -/
theorem round_12_log2_is_nearest (x : ℚ) (hx : 0 < x) :
    ∃ n : Int, round_12_log2 x = some n ∧
      (n : ℝ) - 1 / 2 < 12 * Real.logb 2 (x : ℝ) ∧
      12 * Real.logb 2 (x : ℝ) < (n : ℝ) + 1 / 2 := by
  obtain ⟨n, hn, h1, h2⟩ := round_12_log2_bounds x hx
  refine ⟨n, hn, ?_⟩
  have h1s : (2 : ℚ) ^ (2 * n - 1) < x ^ 24 :=
    lt_of_le_of_ne h1 (fun h => pow_24_ne_two_zpow_odd x hx n h.symm)
  have hxr : (0 : ℝ) < (x : ℝ) := by exact_mod_cast hx
  have hpr : (0 : ℝ) < (x : ℝ) ^ 24 := pow_pos hxr 24
  have h1r : (2 : ℝ) ^ (2 * n - 1) < (x : ℝ) ^ 24 := by
    have := (Rat.cast_lt (K := ℝ)).2 h1s
    push_cast at this
    exact this
  have h2r : (x : ℝ) ^ 24 < (2 : ℝ) ^ (2 * n + 1) := by
    have := (Rat.cast_lt (K := ℝ)).2 h2
    push_cast at this
    exact this
  have e : ∀ k : Int, Real.logb 2 ((2 : ℝ) ^ k) = (k : ℝ) := by
    intro k
    rw [← Real.rpow_intCast, Real.logb_rpow (by norm_num) (by norm_num)]
  have l1 := Real.logb_lt_logb (b := 2) (by norm_num) (zpow_pos (by norm_num) _) h1r
  have l2 := Real.logb_lt_logb (b := 2) (by norm_num) hpr h2r
  rw [e, Real.logb_pow] at l1 l2
  push_cast at l1 l2
  constructor <;> linarith

theorem round_12_log2_unique (x : ℚ) (hx : 0 < x) (n : Int)
    (h1 : (2 : ℚ) ^ (2 * n - 1) ≤ x ^ 24) (h2 : x ^ 24 < (2 : ℚ) ^ (2 * n + 1)) :
    round_12_log2 x = some n := by
  obtain ⟨k, hk, k1, k2⟩ := round_12_log2_bounds x hx
  have a : (2 : ℚ) ^ (2 * n - 1) < (2 : ℚ) ^ (2 * k + 1) := lt_of_le_of_lt h1 k2
  have b : (2 : ℚ) ^ (2 * k - 1) < (2 : ℚ) ^ (2 * n + 1) := lt_of_le_of_lt k1 h2
  rw [zpow_lt_zpow_iff_right₀ (by norm_num)] at a b
  have : k = n := by omega
  rw [hk, this]

/-- Doubling the argument adds 12 to `round_12_log2`. -/
theorem round_12_log2_double (x : ℚ) (hx : 0 < x) :
    round_12_log2 (2 * x) = (round_12_log2 x).map (fun n => n + 12) := by
  obtain ⟨n, hn, h1, h2⟩ := round_12_log2_bounds x hx
  rw [hn]
  apply round_12_log2_unique (2 * x) (by linarith) (n + 12)
  · have e : (2 : ℚ) ^ (2 * (n + 12) - 1) = 2 ^ 24 * 2 ^ (2 * n - 1) := by
      rw [show 2 * (n + 12) - 1 = ((24 : ℕ) : Int) + (2 * n - 1) by push_cast; ring,
        zpow_add₀ (by norm_num), zpow_natCast]
    rw [e, mul_pow]
    exact mul_le_mul_of_nonneg_left h1 (by norm_num)
  · have e : (2 : ℚ) ^ (2 * (n + 12) + 1) = 2 ^ 24 * 2 ^ (2 * n + 1) := by
      rw [show 2 * (n + 12) + 1 = ((24 : ℕ) : Int) + (2 * n + 1) by push_cast; ring,
        zpow_add₀ (by norm_num), zpow_natCast]
    rw [e, mul_pow]
    exact mul_lt_mul_of_pos_left h2 (by norm_num)

/-- Doubling the frequency raises the MIDI number by one octave. -/
theorem midi_note_double (f : ℚ) (hf : 0 < f) :
    midi_note (2 * f) = (midi_note f).map (fun m => m + 12) := by
  have hx : 0 < f / A4_FREQUENCY := div_pos hf (by norm_num [A4_FREQUENCY])
  unfold midi_note
  rw [mul_div_assoc, round_12_log2_double _ hx]
  cases round_12_log2 (f / A4_FREQUENCY) with
  | none => rfl
  | some n => simp only [Option.map_some']; congr 1; ring

/-- Where the MIDI number is not negative, `freq_to_leds` computes the same
note index for a frequency and for its double. -/
theorem freq_to_leds_note_index_double (f : ℚ) (hf : 0 < f) (m : Int)
    (hm : midi_note f = some m) (h0 : 0 ≤ m) :
    freq_to_leds_note_index (2 * f) = freq_to_leds_note_index f := by
  have h2 : (2 * f) ≠ 0 := by linarith
  unfold freq_to_leds_note_index
  rw [if_neg h2, if_neg (ne_of_gt hf), midi_note_double f hf, hm]
  simp only [Option.map_some', Option.some.injEq]
  rw [Int.tmod_eq_emod h0 (by decide), Int.tmod_eq_emod (by omega) (by decide)]
  omega

theorem tmod_twelve_gt (m : Int) : -12 < Int.tmod m 12 := by
  cases m with
  | ofNat n =>
    have h : 0 ≤ Int.tmod (Int.ofNat n) 12 := Int.tmod_nonneg 12 (Int.ofNat_nonneg n)
    omega
  | negSucc n =>
    show -12 < -(((n + 1) % 12 : Nat) : Int)
    omega

theorem tmod_eq_pitch_class (m : Int) (h : 0 ≤ m) : Int.tmod m 12 = pitch_class m := by
  unfold pitch_class
  rw [Int.tmod_eq_emod h (by decide), Int.tmod_eq_emod (by omega) (by decide)]
  omega

theorem pitch_class_range (m : Int) : 0 ≤ pitch_class m ∧ pitch_class m < 12 := by
  unfold pitch_class
  have h1 := Int.tmod_lt_of_pos m (show (0 : Int) < 12 by decide)
  have h2 : -12 < Int.tmod m 12 := tmod_twelve_gt m
  rw [Int.tmod_eq_emod (by omega) (by decide)]
  omega

/-! ## The detection loop -/

theorem getD_set_self {α : Type} (l : List α) (c : Nat) (a d : α) (h : c < l.length) :
    (l.set c a).getD c d = a := by
  simp [List.getD_eq_getElem?_getD, List.getElem?_set_self, h]

theorem getD_set_other {α : Type} (l : List α) (c c0 : Nat) (a d : α) (h : c0 ≠ c) :
    (l.set c0 a).getD c d = l.getD c d := by
  simp [List.getD_eq_getElem?_getD, List.getElem?_set_ne h]

theorem detect_step_inv (mag : Int → ℚ) (seen : List Int) (st : NoteArrays) (i : Int)
    (hinv : LoopInv mag seen st) (hle : ∀ j ∈ seen, j ≤ i)
    (hvalid : ∃ c : Nat, c < 12 ∧ fft_idx_to_note i = some (c : Int)) :
    ∃ st', detect_step mag st i = some st' ∧ LoopInv mag (seen ++ [i]) st' := by
  obtain ⟨hd, hm, hc⟩ := hinv
  obtain ⟨c0, hc0, hnote⟩ := hvalid
  by_cases hmag : mag i > (MIN_MAGNITUDE : ℚ)
  · have hrange : (0 : Int) ≤ (c0 : Int) ∧ ((c0 : Int)) < 12 := by omega
    refine ⟨{ notes_detected := st.notes_detected.set c0 true,
              notes_magnitude := st.notes_magnitude.set c0 (mag i) },
      by simp only [detect_step, if_pos hmag, hnote, if_pos hrange, Int.toNat_ofNat], ?_⟩
    refine ⟨by simp [hd], by simp [hm], ?_⟩
    intro c hclt
    by_cases hcc : c0 = c
    · subst hcc
      rw [getD_set_self _ _ _ _ (by omega), getD_set_self _ _ _ _ (by omega)]
      refine ⟨⟨fun _ => ⟨i, by simp, hmag, hnote⟩, fun _ => rfl⟩, fun _ => ?_⟩
      refine ⟨i, by simp, hmag, hnote, rfl, ?_⟩
      intro j hj _ _
      rcases List.mem_append.1 hj with h | h
      · exact hle j h
      · simp at h; omega
    · rw [getD_set_other _ _ _ _ _ hcc, getD_set_other _ _ _ _ _ hcc]
      have hne : fft_idx_to_note i ≠ some (c : Int) := by
        rw [hnote]; intro h; injection h with h; omega
      obtain ⟨h1, h2⟩ := hc c hclt
      constructor
      · rw [h1]
        constructor
        · rintro ⟨j, hj, hq⟩
          exact ⟨j, List.mem_append_left _ hj, hq⟩
        · rintro ⟨j, hj, hq⟩
          rcases List.mem_append.1 hj with h | h
          · exact ⟨j, h, hq⟩
          · simp at h; subst h; exact absurd hq.2 hne
      · intro hdet
        obtain ⟨i0, hi0, hq1, hq2, hq3, hq4⟩ := h2 hdet
        refine ⟨i0, List.mem_append_left _ hi0, hq1, hq2, hq3, ?_⟩
        intro j hj hj1 hj2
        rcases List.mem_append.1 hj with h | h
        · exact hq4 j h hj1 hj2
        · simp at h; subst h; exact absurd hj2 hne
  · refine ⟨st, by simp only [detect_step, if_neg hmag], hd, hm, ?_⟩
    intro c hclt
    obtain ⟨h1, h2⟩ := hc c hclt
    constructor
    · rw [h1]
      constructor
      · rintro ⟨j, hj, hq⟩
        exact ⟨j, List.mem_append_left _ hj, hq⟩
      · rintro ⟨j, hj, hq⟩
        rcases List.mem_append.1 hj with h | h
        · exact ⟨j, h, hq⟩
        · simp at h; subst h; exact absurd hq.1 hmag
    · intro hdet
      obtain ⟨i0, hi0, hq1, hq2, hq3, hq4⟩ := h2 hdet
      refine ⟨i0, List.mem_append_left _ hi0, hq1, hq2, hq3, ?_⟩
      intro j hj hj1 hj2
      rcases List.mem_append.1 hj with h | h
      · exact hq4 j h hj1 hj2
      · simp at h; subst h; exact absurd hj1 hmag

theorem detect_fold_inv (mag : Int → ℚ) (is : List Int) :
    ∀ (seen : List Int) (st : NoteArrays), LoopInv mag seen st →
      (∀ i ∈ is, ∀ j ∈ seen, j ≤ i) → is.Pairwise (· ≤ ·) →
      (∀ i ∈ is, ∃ c : Nat, c < 12 ∧ fft_idx_to_note i = some (c : Int)) →
      ∃ st', is.foldlM (detect_step mag) st = some st' ∧ LoopInv mag (seen ++ is) st' := by
  induction is with
  | nil => intro seen st hinv _ _ _; exact ⟨st, rfl, by simpa using hinv⟩
  | cons i is ih =>
    intro seen st hinv hle hsorted hvalid
    obtain ⟨st1, hst1, hinv1⟩ := detect_step_inv mag seen st i hinv
      (fun j hj => hle i (List.mem_cons_self _ _) j hj) (hvalid i (List.mem_cons_self _ _))
    have hp := List.pairwise_cons.1 hsorted
    obtain ⟨st2, hst2, hinv2⟩ := ih (seen ++ [i]) st1 hinv1
      (by
        intro k hk j hj
        rcases List.mem_append.1 hj with h | h
        · exact hle k (List.mem_cons_of_mem _ hk) j h
        · simp at h; subst h; exact hp.1 k hk)
      hp.2 (fun k hk => hvalid k (List.mem_cons_of_mem _ hk))
    refine ⟨st2, ?_, by simpa using hinv2⟩
    simp only [List.foldlM_cons, hst1]
    exact hst2

theorem min_index_eq : min_index = 3 := by decide

theorem N_out_eq : N_out = 1025 := by decide

theorem mem_loop_indices (i : Int) : i ∈ loop_indices ↔ min_index ≤ i ∧ i < N_out := by
  have e : ((1025 : Int) - 3).toNat = 1022 := by decide
  simp only [loop_indices, List.mem_map, List.mem_range, min_index_eq, N_out_eq, e]
  constructor
  · rintro ⟨k, hk, rfl⟩
    omega
  · rintro ⟨h1, h2⟩
    exact ⟨(i - 3).toNat, by omega, by omega⟩

theorem loop_indices_sorted : loop_indices.Pairwise (· ≤ ·) := by
  unfold loop_indices
  rw [List.pairwise_map]
  refine (List.pairwise_lt_range _).imp ?_
  intro a b hab
  have : (a : Int) < (b : Int) := by exact_mod_cast hab
  omega

/-- Every bin the loop visits is mapped by `fft_idx_to_note` to an index of the
12-element arrays (checked bin by bin). -/
theorem fft_idx_to_note_loop_check :
    ∀ k : Nat, k < 1022 →
      (match fft_idx_to_note (3 + (k : Int)) with
        | some c => decide (0 ≤ c ∧ c < 12)
        | none => false) = true := by
  decide!

theorem fft_idx_to_note_valid (i : Int) (h : i ∈ loop_indices) :
    ∃ c : Nat, c < 12 ∧ fft_idx_to_note i = some (c : Int) := by
  rw [mem_loop_indices, min_index_eq, N_out_eq] at h
  have hk := fft_idx_to_note_loop_check (i - 3).toNat (by omega)
  have e : (3 : Int) + ((i - 3).toNat : Int) = i := by omega
  rw [e] at hk
  cases hc : fft_idx_to_note i with
  | none => rw [hc] at hk; simp at hk
  | some c =>
    rw [hc] at hk
    have hr : 0 ≤ c ∧ c < 12 := by simpa using hk
    exact ⟨c.toNat, by omega, by rw [Int.toNat_of_nonneg hr.1]⟩

theorem loopInv_init (mag : Int → ℚ) : LoopInv mag [] NoteArrays.init := by
  refine ⟨by simp [NoteArrays.init], by simp [NoteArrays.init], ?_⟩
  intro c hc
  have h : NoteArrays.init.notes_detected.getD c false = false := by
    unfold NoteArrays.init
    interval_cases c <;> rfl
  rw [h]
  simp

theorem detect_notes_loop_inv (mag : Int → ℚ) :
    ∃ st, detect_notes_loop mag = some st ∧ LoopInv mag loop_indices st := by
  have h := detect_fold_inv mag loop_indices [] NoteArrays.init (loopInv_init mag)
    (by simp) loop_indices_sorted fft_idx_to_note_valid
  simpa [detect_notes_loop] using h

theorem detect_fold_congr (mag mag' : Int → ℚ) (is : List Int)
    (h : ∀ i ∈ is, mag' i = mag i) (st : NoteArrays) :
    is.foldlM (detect_step mag') st = is.foldlM (detect_step mag) st := by
  induction is generalizing st with
  | nil => rfl
  | cons i is ih =>
    have hi : mag' i = mag i := h i (List.mem_cons_self _ _)
    have hs : detect_step mag' st i = detect_step mag st i := by
      simp only [detect_step, hi]
    simp only [List.foldlM_cons, hs]
    cases detect_step mag st i with
    | none => rfl
    | some st1 => exact ih (fun k hk => h k (List.mem_cons_of_mem _ hk)) st1

/-! ## The claims on the pitch mapping -/

/-- C5 (evaluation of the code): `freq_to_leds` gives 6 Hz the note index -5
and its octave 12 Hz the note index 7, so doubling the frequency changes the
index; 440 Hz and 880 Hz both give index 9, named "A". -/
theorem freq_to_leds_octave_of_low_frequency :
    freq_to_leds_note_index 6 = some (-5) ∧
      freq_to_leds_note_index (2 * 6) = some 7 ∧
      freq_to_leds_note_index 440 = some 9 ∧
      freq_to_leds_note_index (2 * 440) = some 9 ∧
      noteNames[9]? = some "A" := by
  decide!

/-- C6 (evaluation of the code): at 6 Hz the MIDI number is -5 and the
`note_index` of `freq_to_leds` is the raw remainder -5, not the normalised
pitch class `((-5 mod 12) + 12) mod 12 = 7`; it is not an index of `noteNames`. -/
theorem freq_to_leds_negative_note_index :
    midi_note 6 = some (-5) ∧
      freq_to_leds_note_index 6 = some (-5) ∧
      pitch_class (-5) = 7 ∧
      freq_to_leds_note_index 6 ≠ (midi_note 6).map pitch_class := by
  decide!

/-- C7 (evaluation of the code): for bin 53 `fft_idx_to_note` uses the truncated
frequency 1141 Hz and returns pitch class 1, whereas the exact bin frequency
`53 * 44100 / 2048 = 1141.26` Hz has pitch class 2. -/
theorem fft_idx_to_note_truncates_frequency :
    fft_idx_to_note 53 = some 1 ∧
      exact_bin_note 53 = some 2 ∧
      Int.tdiv (53 * SAMPLE_RATE) FRAMES_PER_BUF = 1141 ∧
      bin_frequency 53 = 1141 + 133 / 512 := by
  decide!

/-! ## The claims on `detect_notes` -/

/-- C8 (counterexample): on the spectrum `twoPeaks` the loop marks class 9 and
stores for it the magnitude 50 of bin 40, although bin 20 qualifies for class 9
with the greater magnitude 100: the stored value is not the maximum.  Visiting
the same bins in the reverse order stores 100. -/
theorem detect_notes_magnitude_not_max :
    ∃ st, detect_notes_loop twoPeaks = some st ∧
      st.notes_detected.getD 9 false = true ∧
      st.notes_magnitude.getD 9 0 = 50 ∧
      Qualifies twoPeaks 9 20 ∧ twoPeaks 20 = 100 ∧
      ¬ (∀ i, Qualifies twoPeaks 9 i → twoPeaks i ≤ st.notes_magnitude.getD 9 0) ∧
      (loop_indices.reverse.foldlM (detect_step twoPeaks) NoteArrays.init).map
        (fun st' => st'.notes_magnitude.getD 9 0) = some 100 := by
  have hq : Qualifies twoPeaks 9 20 := ⟨by decide, by decide, by decide!, by decide!⟩
  refine ⟨{ notes_detected := (List.replicate 12 false).set 9 true,
            notes_magnitude := (List.replicate 12 0).set 9 50 },
    by decide!, by decide, by decide!, hq, by decide!, ?_, by decide!⟩
  intro h
  have h20 := h 20 hq
  revert h20
  decide!

/-- C8 (amended): for every magnitude array the detection loop of
`detect_notes` completes, and for each detected pitch class `c` the value in
`notes_magnitude[c]` is the magnitude of the qualifying bin of class `c` with
the greatest index, the last one the ascending loop visits. -/
theorem detect_notes_keeps_last_bin (mag : Int → ℚ) :
    ∃ st, detect_notes_loop mag = some st ∧
      ∀ c : Nat, c < 12 → st.notes_detected.getD c false = true →
        ∃ i, Qualifies mag c i ∧ st.notes_magnitude.getD c 0 = mag i ∧
          ∀ j, Qualifies mag c j → j ≤ i := by
  obtain ⟨st, hst, _, _, hc⟩ := detect_notes_loop_inv mag
  refine ⟨st, hst, ?_⟩
  intro c hclt hdet
  obtain ⟨i, hi, h1, h2, h3, h4⟩ := (hc c hclt).2 hdet
  have hr := (mem_loop_indices i).1 hi
  refine ⟨i, ⟨hr.1, hr.2, h1, h2⟩, h3, ?_⟩
  intro j hj
  exact h4 j ((mem_loop_indices j).2 ⟨hj.1, hj.2.1⟩) hj.2.2.1 hj.2.2.2

/-- Witness of C8 (amended): on `twoPeaks` class 9 is detected and its stored
magnitude is that of the qualifying bin with the greatest index. -/
theorem detect_notes_keeps_last_bin_witness :
    ∃ st, detect_notes_loop twoPeaks = some st ∧
      st.notes_detected.getD 9 false = true ∧
      ∃ i, Qualifies twoPeaks 9 i ∧ st.notes_magnitude.getD 9 0 = twoPeaks i ∧
        ∀ j, Qualifies twoPeaks 9 j → j ≤ i := by
  obtain ⟨st, hst, hall⟩ := detect_notes_keeps_last_bin twoPeaks
  have hdet : (detect_notes_loop twoPeaks).map
      (fun s => s.notes_detected.getD 9 false) = some true := by decide!
  rw [hst] at hdet
  have hdet' : st.notes_detected.getD 9 false = true := by simpa using hdet
  exact ⟨st, hst, hdet', hall 9 (by decide) hdet'⟩

/-- C9: the detection loop of `detect_notes` completes and marks pitch class
`c` exactly when some bin `i` with `3 ≤ i ≤ 1024` has a magnitude greater than
45 (compared as exact values) and is mapped to `c` by `fft_idx_to_note`; a
spectrum that differs only at bins below 3 or above 1024 gives the same arrays. -/
theorem detect_notes_detected_iff (mag mag' : Int → ℚ)
    (h : ∀ i : Int, 3 ≤ i → i ≤ 1024 → mag' i = mag i) :
    ∃ st, detect_notes_loop mag = some st ∧ detect_notes_loop mag' = some st ∧
      st.notes_detected.length = 12 ∧
      ∀ c : Nat, c < 12 →
        (st.notes_detected.getD c false = true ↔
          ∃ i : Int, 3 ≤ i ∧ i ≤ 1024 ∧ mag i > 45 ∧ fft_idx_to_note i = some (c : Int)) := by
  obtain ⟨st, hst, hd, _, hc⟩ := detect_notes_loop_inv mag
  have hcongr : detect_notes_loop mag' = detect_notes_loop mag := by
    unfold detect_notes_loop
    apply detect_fold_congr
    intro i hi
    have hr := (mem_loop_indices i).1 hi
    rw [min_index_eq, N_out_eq] at hr
    exact h i hr.1 (by omega)
  refine ⟨st, hst, by rw [hcongr, hst], hd, ?_⟩
  intro c hclt
  rw [(hc c hclt).1]
  have h45 : ((MIN_MAGNITUDE : Int) : ℚ) = 45 := by norm_num [MIN_MAGNITUDE]
  constructor
  · rintro ⟨i, hi, h1, h2⟩
    have hr := (mem_loop_indices i).1 hi
    rw [min_index_eq, N_out_eq] at hr
    exact ⟨i, hr.1, by omega, by rw [← h45]; exact h1, h2⟩
  · rintro ⟨i, h1, h2, h3, h4⟩
    refine ⟨i, (mem_loop_indices i).2 ?_, by rw [h45]; exact h3, h4⟩
    rw [min_index_eq, N_out_eq]
    omega

/-- Witness of C9: the spectrum `faintPeak`, whose bin 20 exceeds the threshold
by half a unit, and the same spectrum with magnitude 1000 at bins 0, 1 and 2
give the same arrays. -/
theorem detect_notes_detected_iff_witness :
    ∃ st, detect_notes_loop faintPeak = some st ∧
      detect_notes_loop faintPeakWithHum = some st ∧
      st.notes_detected.length = 12 ∧
      ∀ c : Nat, c < 12 →
        (st.notes_detected.getD c false = true ↔
          ∃ i : Int, 3 ≤ i ∧ i ≤ 1024 ∧ faintPeak i > 45 ∧
            fft_idx_to_note i = some (c : Int)) :=
  detect_notes_detected_iff faintPeak faintPeakWithHum (by
    intro i h3 _
    have h0 : ¬ (i = 0 ∨ i = 1 ∨ i = 2) := by omega
    simp only [faintPeakWithHum, if_neg h0])

/-- C10 (counterexample): bin 3 is examined by both loops (`min_index = 3`) and
its bin frequency `3 * 44100 / 2048` is below 70 Hz. -/
theorem bin_three_is_below_min_freq :
    min_index = 3 ∧ (3 : Int) ∈ loop_indices ∧ min_index ≤ 3 ∧ (3 : Int) < N_out ∧
      bin_frequency 3 < (min_freq : ℚ) ∧ bin_frequency 3 = 33075 / 512 := by
  decide!

/-- C10 (amended): every examined bin `i` (`min_index ≤ i < N_out`) lies less
than one bin spacing below 70 Hz, and every examined bin other than
`min_index = 3` has a bin frequency of at least 70 Hz. -/
theorem examined_bins_frequency (i : Int) (h1 : min_index ≤ i) (_h2 : i < N_out) :
    (min_freq : ℚ) - bin_frequency 1 < bin_frequency i ∧
      (i ≠ min_index → (min_freq : ℚ) ≤ bin_frequency i) := by
  rw [min_index_eq] at h1 ⊢
  have h1q : (3 : ℚ) ≤ (i : ℚ) := by exact_mod_cast h1
  simp only [bin_frequency, min_freq, SAMPLE_RATE, FRAMES_PER_BUF]
  push_cast
  constructor
  · linarith
  · intro hne
    have h4 : (4 : Int) ≤ i := by omega
    have h4q : (4 : ℚ) ≤ (i : ℚ) := by exact_mod_cast h4
    linarith

/-- Witness of C10 (amended), at bin 4. -/
theorem examined_bins_frequency_witness :
    (min_freq : ℚ) - bin_frequency 1 < bin_frequency 4 ∧
      ((4 : Int) ≠ min_index → (min_freq : ℚ) ≤ bin_frequency 4) :=
  examined_bins_frequency 4 (by decide) (by decide)

/-! ## Lemmas on `set_pixel`, `clear` and the LED loops -/

theorem foldl_set_length {α : Type} (z : α) (m : Nat) (l : List α) :
    ((List.range m).foldl (fun px i => px.set i z) l).length = l.length := by
  induction m with
  | zero => rfl
  | succ m ih => simp [List.range_succ, List.foldl_append, ih]

theorem foldl_set_getElem? {α : Type} (z : α) (m : Nat) (l : List α) (k : Nat) :
    ((List.range m).foldl (fun px i => px.set i z) l)[k]? =
      if k < m ∧ k < l.length then some z else l[k]? := by
  induction m with
  | zero => simp
  | succ m ih =>
    simp only [List.range_succ, List.foldl_append, List.foldl_cons, List.foldl_nil,
      List.getElem?_set, foldl_set_length, ih]
    by_cases hmk : m = k
    · subst hmk
      by_cases hl : m < l.length
      · simp [hl]
      · have : l[m]? = none := List.getElem?_eq_none (by omega)
        simp [hl, this]
    · by_cases hk : k < m
      · have : k < m + 1 := by omega
        simp [hmk, hk, this]
      · have : ¬ k < m + 1 := by omega
        simp [hmk, hk, this]

theorem clear_pixels (s : Pi5NeoCpp) (h : s.wf) :
    s.clear.pixels = List.replicate s.num_leds ⟨0, 0, 0⟩ := by
  unfold Pi5NeoCpp.wf at h
  apply List.ext_getElem?
  intro k
  simp only [Pi5NeoCpp.clear, foldl_set_getElem?, List.getElem?_replicate, h]
  by_cases hk : k < s.num_leds
  · simp [hk]
  · have : s.pixels[k]? = none := List.getElem?_eq_none (by omega)
    simp [hk, this]

theorem clear_eq_init (s : Pi5NeoCpp) (h : s.wf) : s.clear = Pi5NeoCpp.init s.num_leds := by
  have hp := clear_pixels s h
  have hn : s.clear.num_leds = s.num_leds := rfl
  cases hc : s.clear with
  | mk n px =>
    rw [hc] at hp hn
    simp only at hp hn
    simp [Pi5NeoCpp.init, hp, hn]

theorem set_pixel_num_leds (s : Pi5NeoCpp) (index r g b : Nat) :
    (s.set_pixel index r g b).num_leds = s.num_leds := by
  unfold Pi5NeoCpp.set_pixel
  by_cases h : index < s.num_leds <;> simp [h]

theorem set_pixel_wf (s : Pi5NeoCpp) (index r g b : Nat) (h : s.wf) :
    (s.set_pixel index r g b).wf := by
  unfold Pi5NeoCpp.wf Pi5NeoCpp.set_pixel at *
  by_cases hi : index < s.num_leds <;> simp [hi, h]

theorem set_pixel_getD (s : Pi5NeoCpp) (index r g b k : Nat) (d : Pixel) (h : s.wf)
    (hi : index < s.num_leds) :
    (s.set_pixel index r g b).pixels.getD k d =
      if k = index then ⟨r / 2, g / 2, b / 2⟩ else s.pixels.getD k d := by
  unfold Pi5NeoCpp.wf at h
  simp only [Pi5NeoCpp.set_pixel, if_pos hi]
  by_cases hk : k = index
  · subst hk
    rw [if_pos rfl, getD_set_self _ _ _ _ (by omega)]
  · rw [if_neg hk, getD_set_other _ _ _ _ _ (fun e => hk e.symm)]

/-- The four `set_pixel` calls for a detected class write the halved row
`notes_RGB[n]` to the pixels `4 n .. 4 n + 3` and to no other. -/
theorem light_note_spec (s : Pi5NeoCpp) (n k : Nat) (d : Pixel) (h : s.wf)
    (h48 : s.num_leds = 48) (hn : n < 12) :
    (light_note s n).wf ∧ (light_note s n).num_leds = 48 ∧
      (light_note s n).pixels.getD k d =
        if k / 4 = n then
          ⟨notes_RGB_at n 0 / 2, notes_RGB_at n 1 / 2, notes_RGB_at n 2 / 2⟩
        else s.pixels.getD k d := by
  have hr : List.range 4 = [0, 1, 2, 3] := rfl
  simp only [light_note, leds_per_note, hr, List.foldl_cons, List.foldl_nil]
  refine ⟨?_, ?_, ?_⟩
  · exact set_pixel_wf _ _ _ _ _ (set_pixel_wf _ _ _ _ _ (set_pixel_wf _ _ _ _ _
      (set_pixel_wf _ _ _ _ _ h)))
  · simp only [set_pixel_num_leds, h48]
  · rw [set_pixel_getD _ _ _ _ _ _ _ (set_pixel_wf _ _ _ _ _ (set_pixel_wf _ _ _ _ _
        (set_pixel_wf _ _ _ _ _ h))) (by simp only [set_pixel_num_leds, h48]; omega),
      set_pixel_getD _ _ _ _ _ _ _ (set_pixel_wf _ _ _ _ _ (set_pixel_wf _ _ _ _ _ h))
        (by simp only [set_pixel_num_leds, h48]; omega),
      set_pixel_getD _ _ _ _ _ _ _ (set_pixel_wf _ _ _ _ _ h)
        (by simp only [set_pixel_num_leds, h48]; omega),
      set_pixel_getD _ _ _ _ _ _ _ h (by omega)]
    by_cases hk : k / 4 = n
    · rw [if_pos hk]
      have : k = n * 4 + 0 ∨ k = n * 4 + 1 ∨ k = n * 4 + 2 ∨ k = n * 4 + 3 := by omega
      rcases this with e | e | e | e <;> simp [e]
    · rw [if_neg hk]
      have h0 : k ≠ n * 4 + 0 := by omega
      have h1 : k ≠ n * 4 + 1 := by omega
      have h2 : k ≠ n * 4 + 2 := by omega
      have h3 : k ≠ n * 4 + 3 := by omega
      rw [if_neg h3, if_neg h2, if_neg h1, if_neg h0]

theorem light_notes_prefix (dt : List Bool) (s : Pi5NeoCpp) (d : Pixel) (h : s.wf)
    (h48 : s.num_leds = 48) (m : Nat) (hm : m ≤ 12) :
    let t := (List.range m).foldl
      (fun px note_idx => if dt.getD note_idx false then light_note px note_idx else px) s
    t.wf ∧ t.num_leds = 48 ∧ ∀ k : Nat,
      t.pixels.getD k d =
        if k / 4 < m ∧ dt.getD (k / 4) false = true then
          ⟨notes_RGB_at (k / 4) 0 / 2, notes_RGB_at (k / 4) 1 / 2, notes_RGB_at (k / 4) 2 / 2⟩
        else s.pixels.getD k d := by
  induction m with
  | zero => exact ⟨h, h48, fun k => by simp⟩
  | succ m ih =>
    obtain ⟨hw, hn, hk⟩ := ih (by omega)
    simp only [List.range_succ, List.foldl_append, List.foldl_cons, List.foldl_nil]
    by_cases hd : dt.getD m false = true
    · rw [if_pos hd]
      refine ⟨(light_note_spec _ m 0 d hw hn (by omega)).1,
        (light_note_spec _ m 0 d hw hn (by omega)).2.1, ?_⟩
      intro k
      rw [(light_note_spec _ m k d hw hn (by omega)).2.2, hk k]
      by_cases e : k / 4 = m
      · rw [if_pos e, if_pos ⟨by omega, by rw [e]; exact hd⟩, e]
      · rw [if_neg e]
        have : (k / 4 < m + 1) ↔ (k / 4 < m) := by omega
        simp only [this]
    · rw [if_neg hd]
      refine ⟨hw, hn, ?_⟩
      intro k
      rw [hk k]
      by_cases e : k / 4 = m
      · rw [if_neg (fun c => by omega), if_neg (fun c => hd (by rw [← e]; exact c.2))]
      · have : (k / 4 < m + 1) ↔ (k / 4 < m) := by omega
        simp only [this]

theorem light_notes_spec (dt : List Bool) (s : Pi5NeoCpp) (d : Pixel) (h : s.wf)
    (h48 : s.num_leds = 48) :
    (light_notes dt s).wf ∧ (light_notes dt s).num_leds = 48 ∧ ∀ k : Nat, k < 48 →
      (light_notes dt s).pixels.getD k d =
        if dt.getD (k / 4) false = true then
          ⟨notes_RGB_at (k / 4) 0 / 2, notes_RGB_at (k / 4) 1 / 2, notes_RGB_at (k / 4) 2 / 2⟩
        else s.pixels.getD k d := by
  obtain ⟨hw, hn, hk⟩ := light_notes_prefix dt s d h h48 12 (Nat.le_refl 12)
  refine ⟨hw, hn, ?_⟩
  intro k hlt
  have hq : k / 4 < 12 := by omega
  have := hk k
  simp only [hq, true_and] at this
  exact this

/-! ## The claims on the strip -/

/-- C11: for every spectrum and every prior content of a 48-pixel strip,
`detect_notes` completes and flushes a pixel buffer that depends on the
spectrum alone: pixel `k` holds the halved row `notes_RGB[k / 4]` (what
`set_pixel` stores for it) when class `k / 4` is detected, i.e. when some bin
qualifies for it, and `(0, 0, 0)` otherwise; every index `note_idx * 4 + i`
passed to `set_pixel` is below `num_leds`; when no examined bin exceeds the
threshold all 48 pixels are `(0, 0, 0)`. -/
theorem detect_notes_pixels (w : LedWorld) (mag : Int → ℚ) (reply : Nat → List Nat → Int)
    (hw : w.strip.wf) (h48 : w.strip.num_leds = 48) :
    ∃ st w' r, detect_notes_loop mag = some st ∧ detect_notes w mag reply = some (w', r) ∧
      w'.strip = light_notes st.notes_detected (Pi5NeoCpp.init 48) ∧
      w'.writes = w.writes ++ [show_spi_buffer w'.strip] ∧
      w'.strip.pixels.length = 48 ∧
      (∀ c : Nat, c < 12 →
        (st.notes_detected.getD c false = true ↔ ∃ i, Qualifies mag c i)) ∧
      (∀ k : Nat, k < 48 →
        w'.strip.pixels.getD k ⟨0, 0, 0⟩ =
          if st.notes_detected.getD (k / 4) false = true then
            ⟨notes_RGB_at (k / 4) 0 / 2, notes_RGB_at (k / 4) 1 / 2, notes_RGB_at (k / 4) 2 / 2⟩
          else ⟨0, 0, 0⟩) ∧
      (∀ note_idx i : Nat, note_idx < 12 → i < leds_per_note →
        note_idx * leds_per_note + i < w.strip.num_leds) ∧
      ((∀ i : Int, min_index ≤ i → i < N_out → mag i ≤ (MIN_MAGNITUDE : ℚ)) →
        w'.strip.pixels = List.replicate 48 ⟨0, 0, 0⟩) := by
  obtain ⟨st, hst, _, _, hc⟩ := detect_notes_loop_inv mag
  have hclear : w.strip.clear = Pi5NeoCpp.init 48 := by
    rw [clear_eq_init _ hw, h48]
  have hinit : (Pi5NeoCpp.init 48).wf := by simp [Pi5NeoCpp.wf, Pi5NeoCpp.init]
  obtain ⟨lw, _, lk⟩ := light_notes_spec st.notes_detected (Pi5NeoCpp.init 48) ⟨0, 0, 0⟩
    hinit rfl
  have hzero : ∀ k : Nat, (Pi5NeoCpp.init 48).pixels.getD k ⟨0, 0, 0⟩ = ⟨0, 0, 0⟩ := by
    intro k
    simp only [Pi5NeoCpp.init, List.getD_eq_getElem?_getD, List.getElem?_replicate]
    split <;> rfl
  have hpix : ∀ k : Nat, k < 48 →
      (light_notes st.notes_detected (Pi5NeoCpp.init 48)).pixels.getD k ⟨0, 0, 0⟩ =
        if st.notes_detected.getD (k / 4) false = true then
          ⟨notes_RGB_at (k / 4) 0 / 2, notes_RGB_at (k / 4) 1 / 2, notes_RGB_at (k / 4) 2 / 2⟩
        else ⟨0, 0, 0⟩ := by
    intro k hk
    rw [lk k hk, hzero k]
  have hlen : (light_notes st.notes_detected (Pi5NeoCpp.init 48)).pixels.length = 48 := by
    have := lw
    unfold Pi5NeoCpp.wf at this
    rw [this]
    exact (light_notes_spec st.notes_detected (Pi5NeoCpp.init 48) ⟨0, 0, 0⟩ hinit rfl).2.1
  have hq : ∀ c : Nat, c < 12 →
      (st.notes_detected.getD c false = true ↔ ∃ i, Qualifies mag c i) := by
    intro c hclt
    rw [(hc c hclt).1]
    constructor
    · rintro ⟨i, hi, h1, h2⟩
      have hr := (mem_loop_indices i).1 hi
      exact ⟨i, hr.1, hr.2, h1, h2⟩
    · rintro ⟨i, h1, h2, h3, h4⟩
      exact ⟨i, (mem_loop_indices i).2 ⟨h1, h2⟩, h3, h4⟩
  refine ⟨st,
    { strip := light_notes st.notes_detected (Pi5NeoCpp.init 48),
      writes := w.writes ++ [show_spi_buffer (light_notes st.notes_detected (Pi5NeoCpp.init 48))],
      calls := w.calls ++ [Call.clear] ++ [Call.show_] },
    Except.map (fun _ => 1)
      ((light_notes st.notes_detected (Pi5NeoCpp.init 48)).show_ (reply w.writes.length)),
    hst, by simp only [detect_notes, hst, LedWorld.show_, LedWorld.clear, hclear],
    rfl, rfl, hlen, hq, hpix, ?_, ?_⟩
  · intro note_idx i hn hi
    unfold leds_per_note at *
    omega
  · intro hnone
    apply List.ext_getElem?
    intro k
    by_cases hk : k < 48
    · have hnd : ¬ st.notes_detected.getD (k / 4) false = true := by
        intro hdet
        obtain ⟨i, h1, h2, h3, _⟩ := (hq (k / 4) (by omega)).1 hdet
        exact absurd h3 (not_lt.2 (hnone i h1 h2))
      have hk' := hpix k hk
      rw [if_neg hnd, List.getD_eq_getElem?_getD] at hk'
      have hlt : k < (light_notes st.notes_detected (Pi5NeoCpp.init 48)).pixels.length := by
        rw [hlen]; exact hk
      rw [List.getElem?_eq_getElem hlt] at hk' ⊢
      simp only [Option.getD_some] at hk'
      rw [List.getElem?_replicate, if_pos hk, hk']
    · rw [List.getElem?_eq_none (by rw [hlen]; omega),
        List.getElem?_eq_none (by rw [List.length_replicate]; omega)]

/-- Witness of C11: the strip of 48 LEDs as built by the constructor, the
spectrum `twoPeaks` and a bus that accepts every write. -/
theorem detect_notes_pixels_witness :
    ∃ st w' r, detect_notes_loop twoPeaks = some st ∧
      detect_notes startWorld twoPeaks fullWrite = some (w', r) ∧
      w'.strip = light_notes st.notes_detected (Pi5NeoCpp.init 48) ∧
      w'.writes = startWorld.writes ++ [show_spi_buffer w'.strip] ∧
      w'.strip.pixels.length = 48 ∧
      (∀ c : Nat, c < 12 →
        (st.notes_detected.getD c false = true ↔ ∃ i, Qualifies twoPeaks c i)) ∧
      (∀ k : Nat, k < 48 →
        w'.strip.pixels.getD k ⟨0, 0, 0⟩ =
          if st.notes_detected.getD (k / 4) false = true then
            ⟨notes_RGB_at (k / 4) 0 / 2, notes_RGB_at (k / 4) 1 / 2, notes_RGB_at (k / 4) 2 / 2⟩
          else ⟨0, 0, 0⟩) ∧
      (∀ note_idx i : Nat, note_idx < 12 → i < leds_per_note →
        note_idx * leds_per_note + i < startWorld.strip.num_leds) ∧
      ((∀ i : Int, min_index ≤ i → i < N_out → twoPeaks i ≤ (MIN_MAGNITUDE : ℚ)) →
        w'.strip.pixels = List.replicate 48 ⟨0, 0, 0⟩) :=
  detect_notes_pixels startWorld twoPeaks fullWrite (by decide) (by decide)

/-- C12: for an index that is not below `num_leds`, `set_pixel` (in both source
files) returns normally and leaves the strip, hence every pixel and the length
of the buffer, as it was. -/
theorem set_pixel_out_of_range (s : Pi5NeoCpp) (index r g b : Nat)
    (h : s.num_leds ≤ index) :
    s.set_pixel index r g b = s ∧ s.set_pixel_LED_Drivers index r g b = s := by
  have hn : ¬ index < s.num_leds := by omega
  exact ⟨by simp only [Pi5NeoCpp.set_pixel, if_neg hn],
    by simp only [Pi5NeoCpp.set_pixel_LED_Drivers, if_neg hn]⟩

/-- Witness of C12: index 1 on the one-LED strip. -/
theorem set_pixel_out_of_range_witness :
    redStrip.set_pixel 1 9 9 9 = redStrip ∧ redStrip.set_pixel_LED_Drivers 1 9 9 9 = redStrip :=
  set_pixel_out_of_range redStrip 1 9 9 9 (by decide)

/-- C13: a call of `show` hands exactly one buffer to `write`, the whole
encoded buffer; it throws exactly when the number `write` returns differs from
the size of that buffer; and it leaves the strip unchanged in both cases. -/
theorem show_writes_once (w : LedWorld) (reply : Nat → List Nat → Int) :
    (w.show_ reply).1.writes = w.writes ++ [show_spi_buffer w.strip] ∧
      (w.show_ reply).1.strip = w.strip ∧
      ((∃ e, (w.show_ reply).2 = Except.error e) ↔
        reply w.writes.length (show_spi_buffer w.strip) ≠
          ((show_spi_buffer w.strip).length : Int)) ∧
      ((w.show_ reply).2 = Except.ok () ↔
        reply w.writes.length (show_spi_buffer w.strip) =
          ((show_spi_buffer w.strip).length : Int)) := by
  refine ⟨rfl, rfl, ?_, ?_⟩
  · by_cases h : reply w.writes.length (show_spi_buffer w.strip) =
        ((show_spi_buffer w.strip).length : Int)
    · simp [LedWorld.show_, Pi5NeoCpp.show_, h]
    · simp [LedWorld.show_, Pi5NeoCpp.show_, h]
  · by_cases h : reply w.writes.length (show_spi_buffer w.strip) =
        ((show_spi_buffer w.strip).length : Int)
    · simp [LedWorld.show_, Pi5NeoCpp.show_, h]
    · simp [LedWorld.show_, Pi5NeoCpp.show_, h]

/-- C14 (counterexample): constructing the 48-LED strip on a bus that opens and
configures successfully performs no bus write and no call of `show`, not one. -/
theorem construct_performs_no_write :
    ∃ w, Pi5NeoCpp.construct 48 true true = Except.ok w ∧
      w.writes.length = 0 ∧ w.writes.length ≠ 1 ∧ w.calls = [] :=
  ⟨{ strip := Pi5NeoCpp.init 48, writes := [], calls := [] }, rfl, rfl, by decide, rfl⟩

/-- C14 (amended): constructing a strip whose bus opens and configures
successfully leaves all `num_leds` pixels at `(0, 0, 0)` and performs no bus
write and no call of `clear` or `show`. -/
theorem construct_all_off_no_write (num : Nat) :
    ∃ w, Pi5NeoCpp.construct num true true = Except.ok w ∧
      w.strip.num_leds = num ∧ w.strip.pixels = List.replicate num ⟨0, 0, 0⟩ ∧
      w.writes = [] ∧ w.calls = [] :=
  ⟨{ strip := Pi5NeoCpp.init num, writes := [], calls := [] }, rfl, rfl, rfl, rfl, rfl⟩

/-- C15 (counterexample): from the 48-LED strip on a bus that accepts every
write, the teardown of `main` makes the calls `clear, show, clear, show` and two
bus writes, not one `clear` and one `show`. -/
theorem main_teardown_flushes_twice :
    (main_teardown startWorld fullWrite).1.calls =
        [Call.clear, Call.show_, Call.clear, Call.show_] ∧
      (main_teardown startWorld fullWrite).1.writes.length = 2 ∧
      (main_teardown startWorld fullWrite).1.writes.length ≠ 1 := by
  decide!

/-- C15 (amended): when the `write` of the `show` in `main` succeeds, the
teardown path performs exactly two `clear`s each followed by one `show`, the
pair written in `main` and the pair of the destructor, each `show` writing the
all-off frame, and `main` returns 0; when that `write` fails, the path ends
with the exception after one `clear` and one `show`. -/
theorem main_teardown_calls (w : LedWorld) (reply : Nat → List Nat → Int) (hw : w.strip.wf) :
    (reply w.writes.length (show_spi_buffer (Pi5NeoCpp.init w.strip.num_leds)) =
        ((show_spi_buffer (Pi5NeoCpp.init w.strip.num_leds)).length : Int) →
      (main_teardown w reply).1.calls =
          w.calls ++ [Call.clear, Call.show_, Call.clear, Call.show_] ∧
        (main_teardown w reply).1.writes =
          w.writes ++ [show_spi_buffer (Pi5NeoCpp.init w.strip.num_leds),
            show_spi_buffer (Pi5NeoCpp.init w.strip.num_leds)] ∧
        (main_teardown w reply).2 = Except.ok 0) ∧
    (reply w.writes.length (show_spi_buffer (Pi5NeoCpp.init w.strip.num_leds)) ≠
        ((show_spi_buffer (Pi5NeoCpp.init w.strip.num_leds)).length : Int) →
      (main_teardown w reply).1.calls = w.calls ++ [Call.clear, Call.show_] ∧
        (main_teardown w reply).1.writes =
          w.writes ++ [show_spi_buffer (Pi5NeoCpp.init w.strip.num_leds)] ∧
        ∃ e, (main_teardown w reply).2 = Except.error e) := by
  have hc : w.strip.clear = Pi5NeoCpp.init w.strip.num_leds := clear_eq_init _ hw
  have hi : (Pi5NeoCpp.init w.strip.num_leds).clear = Pi5NeoCpp.init w.strip.num_leds := by
    have := clear_eq_init (Pi5NeoCpp.init w.strip.num_leds)
      (by simp [Pi5NeoCpp.wf, Pi5NeoCpp.init])
    exact this
  constructor
  · intro h
    simp [main_teardown, LedWorld.destruct, LedWorld.show_, LedWorld.clear, Pi5NeoCpp.show_,
      hc, hi, h]
  · intro h
    simp [main_teardown, LedWorld.destruct, LedWorld.show_, LedWorld.clear, Pi5NeoCpp.show_,
      hc, hi, h]

/-- Witness of C15 (amended): the 48-LED strip on a bus that accepts every write. -/
theorem main_teardown_calls_witness :
    (main_teardown startWorld fullWrite).1.calls =
        startWorld.calls ++ [Call.clear, Call.show_, Call.clear, Call.show_] ∧
      (main_teardown startWorld fullWrite).1.writes =
        startWorld.writes ++ [show_spi_buffer (Pi5NeoCpp.init startWorld.strip.num_leds),
          show_spi_buffer (Pi5NeoCpp.init startWorld.strip.num_leds)] ∧
      (main_teardown startWorld fullWrite).2 = Except.ok 0 :=
  (main_teardown_calls startWorld fullWrite (by decide)).1 rfl

/-- C16 (evaluation of the code): after one frame has been published, two
polls of the main loop of `src/src/main.cpp` with no publish in between both
find `new_data` set and analyse the same buffer twice; the loop of
`src/AudioTest/audio_in.cpp`, which resets the flag, takes it once. -/
theorem main_poll_repeats_frame (e : Exchange) (input : List ℚ) :
    (main_poll (main_poll (audioCallback input e))).analysed =
        e.analysed ++ [(audioCallback input e).audio_buffer,
          (audioCallback input e).audio_buffer] ∧
      (main_poll (audioCallback input e)).new_data = 1 ∧
      (audio_test_poll (audio_test_poll (audioCallback input e))).analysed =
        e.analysed ++ [(audioCallback input e).audio_buffer] := by
  simp [main_poll, audio_test_poll, audioCallback]

/-- C17 (evaluation of the code): `freq_to_leds` returns at its guard for the
frequency 0 and leaves the strip and the bus untouched, but for the frequency
-1 the guard does not apply and the logarithm is taken of `-1 / 440`, and
`fft_idx_to_note(0)` takes the logarithm of `0 / 440`: neither has a defined
result. -/
theorem freq_to_leds_negative_is_undefined :
    freq_to_leds startWorld 0 fullWrite = some (startWorld, Except.ok 1) ∧
      (freq_to_leds startWorld (-1) fullWrite).isNone = true ∧
      (-1 : ℚ) / A4_FREQUENCY < 0 ∧ round_12_log2 ((-1 : ℚ) / A4_FREQUENCY) = none ∧
      fft_idx_to_note 0 = none ∧
      ((Int.tdiv (0 * SAMPLE_RATE) FRAMES_PER_BUF : Int) : ℚ) / A4_FREQUENCY = 0 ∧
      round_12_log2 (((Int.tdiv (0 * SAMPLE_RATE) FRAMES_PER_BUF : Int) : ℚ) / A4_FREQUENCY) =
        none := by
  refine ⟨rfl, ?_, ?_, ?_, ?_, ?_, ?_⟩ <;> decide!

/-- C19: for an index below `num_leds` and byte components, `set_pixel` of
`src/src/led_strip.cpp` stores the halved components at that pixel, `set_pixel`
of `src/LED_Drivers/led_strip.cpp` stores the components as given, both leave
every other pixel unchanged, the first is the second applied to the halved
components, and the two agree exactly when `r`, `g` and `b` are all 0. -/
theorem set_pixel_halves (s : Pi5NeoCpp) (i r g b : Nat) (hw : s.wf) (hi : i < s.num_leds)
    (hr : r < 256) (hg : g < 256) (hb : b < 256) :
    (s.set_pixel i r g b).pixels.getD i ⟨0, 0, 0⟩ = ⟨r / 2, g / 2, b / 2⟩ ∧
      (⟨r / 2, g / 2, b / 2⟩ : Pixel).wf ∧
      (s.set_pixel_LED_Drivers i r g b).pixels.getD i ⟨0, 0, 0⟩ = ⟨r, g, b⟩ ∧
      (∀ j : Nat, j ≠ i →
        (s.set_pixel i r g b).pixels.getD j ⟨0, 0, 0⟩ = s.pixels.getD j ⟨0, 0, 0⟩ ∧
        (s.set_pixel_LED_Drivers i r g b).pixels.getD j ⟨0, 0, 0⟩ = s.pixels.getD j ⟨0, 0, 0⟩) ∧
      (s.set_pixel i r g b).pixels.length = s.pixels.length ∧
      (s.set_pixel_LED_Drivers i r g b).pixels.length = s.pixels.length ∧
      s.set_pixel i r g b = s.set_pixel_LED_Drivers i (r / 2) (g / 2) (b / 2) ∧
      (s.set_pixel i r g b = s.set_pixel_LED_Drivers i r g b ↔ r = 0 ∧ g = 0 ∧ b = 0) := by
  have hlen : i < s.pixels.length := by unfold Pi5NeoCpp.wf at hw; omega
  have e1 : s.set_pixel i r g b = { s with pixels := s.pixels.set i ⟨r / 2, g / 2, b / 2⟩ } := by
    simp only [Pi5NeoCpp.set_pixel, if_pos hi]
  have e2 : ∀ r' g' b' : Nat, s.set_pixel_LED_Drivers i r' g' b' =
      { s with pixels := s.pixels.set i ⟨r', g', b'⟩ } := by
    intro r' g' b'
    simp only [Pi5NeoCpp.set_pixel_LED_Drivers, if_pos hi]
  refine ⟨?_, ?_, ?_, ?_, ?_, ?_, ?_, ?_⟩
  · rw [e1]; exact getD_set_self _ _ _ _ hlen
  · unfold Pixel.wf; simp only; omega
  · rw [e2]; exact getD_set_self _ _ _ _ hlen
  · intro j hj
    rw [e1, e2]
    exact ⟨getD_set_other _ _ _ _ _ (fun e => hj e.symm),
      getD_set_other _ _ _ _ _ (fun e => hj e.symm)⟩
  · rw [e1]; simp
  · rw [e2]; simp
  · rw [e1, e2]
  · rw [e1, e2]
    constructor
    · intro h
      have hp : (s.pixels.set i ⟨r / 2, g / 2, b / 2⟩).getD i ⟨0, 0, 0⟩ =
          (s.pixels.set i ⟨r, g, b⟩).getD i ⟨0, 0, 0⟩ := by
        have := congrArg Pi5NeoCpp.pixels h
        simp only at this
        rw [this]
      rw [getD_set_self _ _ _ _ hlen, getD_set_self _ _ _ _ hlen] at hp
      injection hp with h1 h2 h3
      omega
    · rintro ⟨rfl, rfl, rfl⟩
      rfl

/-- Witness of C19: pixel 0 of the one-LED strip, colour `(255, 128, 1)`. -/
theorem set_pixel_halves_witness :
    (redStrip.set_pixel 0 255 128 1).pixels.getD 0 ⟨0, 0, 0⟩ = ⟨255 / 2, 128 / 2, 1 / 2⟩ ∧
      (⟨255 / 2, 128 / 2, 1 / 2⟩ : Pixel).wf ∧
      (redStrip.set_pixel_LED_Drivers 0 255 128 1).pixels.getD 0 ⟨0, 0, 0⟩ = ⟨255, 128, 1⟩ ∧
      (∀ j : Nat, j ≠ 0 →
        (redStrip.set_pixel 0 255 128 1).pixels.getD j ⟨0, 0, 0⟩ =
          redStrip.pixels.getD j ⟨0, 0, 0⟩ ∧
        (redStrip.set_pixel_LED_Drivers 0 255 128 1).pixels.getD j ⟨0, 0, 0⟩ =
          redStrip.pixels.getD j ⟨0, 0, 0⟩) ∧
      (redStrip.set_pixel 0 255 128 1).pixels.length = redStrip.pixels.length ∧
      (redStrip.set_pixel_LED_Drivers 0 255 128 1).pixels.length = redStrip.pixels.length ∧
      redStrip.set_pixel 0 255 128 1 =
        redStrip.set_pixel_LED_Drivers 0 (255 / 2) (128 / 2) (1 / 2) ∧
      (redStrip.set_pixel 0 255 128 1 = redStrip.set_pixel_LED_Drivers 0 255 128 1 ↔
        255 = 0 ∧ 128 = 0 ∧ 1 = 0) :=
  set_pixel_halves redStrip 0 255 128 1 (by decide) (by decide) (by decide) (by decide)
    (by decide)

/-- C20 (evaluation of the code): on the spectrum `closePeaks` (50.75 at bin 3,
50.5 at bin 4) `fft_calculate_magnitudes` returns bin 4, whose magnitude is
smaller than that of the examined bin 3: after bin 3 the `int` `max_mag` holds
50, and `50.5 > 50` replaces the peak. -/
theorem fft_calculate_magnitudes_not_argmax :
    fft_calculate_magnitudes closePeaks = some 4 ∧
      closePeaks 4 < closePeaks 3 ∧
      min_index ≤ 3 ∧ (3 : Int) < N_out ∧
      magnitude_step closePeaks (0, 0) 3 = some (50, 3) ∧
      magnitude_step closePeaks (50, 3) 4 = some (50, 4) := by
  decide!

/-! ## The hand-off between the two threads -/

theorem handoffInv_init (frames : Nat → List ℚ) (n : Nat) (fft_in₀ : List ℚ)
    (h0 : fft_in₀.length = n) : HandoffInv frames n (Threads.init n fft_in₀) where
  len_buffer := by simp [Threads.init]
  len_fft := h0
  lock := rfl
  exclusive := by simp [Threads.init, CapturePC.holds]
  capture_prefix := by intro k h; simp [Threads.init] at h
  buffer_whole := by intro _ h; simp [Threads.init] at h
  flag_set := by intro h; simp [Threads.init] at h
  capture_flag := by intro h; simp [Threads.init] at h
  main_locking := by intro h; simp [Threads.init] at h
  main_prefix := by intro k h; simp [Threads.init] at h
  log := ⟨[], List.Pairwise.nil, by simp, rfl⟩

theorem eq_of_prefix (l f : List ℚ) (n : Nat) (hl : l.length = n) (hf : f.length = n)
    (h : ∀ i, i < n → l[i]? = f[i]?) : l = f := by
  apply List.ext_getElem?
  intro i
  by_cases hi : i < n
  · exact h i hi
  · rw [List.getElem?_eq_none (by omega), List.getElem?_eq_none (by omega)]

theorem set_prefix (l f : List ℚ) (k : Nat) (hk : k < l.length) (hf : k < f.length)
    (h : ∀ i, i < k → l[i]? = f[i]?) :
    ∀ i, i < k + 1 → (l.set k (f.getD k 0))[i]? = f[i]? := by
  intro i hi
  by_cases e : k = i
  · subst e
    rw [List.getElem?_set_self hk, List.getD_eq_getElem?_getD, List.getElem?_eq_getElem hf]
    rfl
  · rw [List.getElem?_set_ne e]
    exact h i (by omega)

theorem capture_step_inv (frames : Nat → List ℚ) (n : Nat) (hframes : ∀ j, (frames j).length = n)
    (s : Threads) (h : HandoffInv frames n s) : HandoffInv frames n (capture_step frames n s) := by
  unfold capture_step
  cases hc : s.capture with
  | idle =>
    simp only
    by_cases hl : s.locked = true
    · rw [if_pos hl]; exact h
    · rw [if_neg hl]
      have hlock := h.lock
      rw [hc] at hlock
      have hm : s.main.holds = false := by
        cases hmh : s.main.holds with
        | false => rfl
        | true => rw [hmh] at hlock; simp [CapturePC.holds] at hlock; exact absurd hlock hl
      exact {
        len_buffer := h.len_buffer
        len_fft := h.len_fft
        lock := by simp [CapturePC.holds]
        exclusive := by simp [hm]
        capture_prefix := by
          intro k hk
          simp only [CapturePC.copying.injEq] at hk
          subst hk
          exact ⟨Nat.zero_le _, fun i hi => absurd hi (Nat.not_lt_zero i)⟩
        buffer_whole := by intro hh; simp [CapturePC.holds] at hh
        flag_set := h.flag_set
        capture_flag := by intro hh; simp at hh
        main_locking := h.main_locking
        main_prefix := by
          intro k hk
          simp only at hk
          rw [hk] at hm
          simp [MainPC.holds] at hm
        log := h.log }
  | copying k =>
    simp only
    obtain ⟨hkn, hpre⟩ := h.capture_prefix k hc
    have hm : s.main.holds = false := by
      cases hmh : s.main.holds with
      | false => rfl
      | true => exact absurd ⟨by rw [hc]; rfl, hmh⟩ h.exclusive
    have hmc : ∀ j, s.main ≠ MainPC.copying j := by
      intro j hj
      rw [hj] at hm
      simp [MainPC.holds] at hm
    by_cases hk : k < n
    · rw [if_pos hk]
      exact {
        len_buffer := by simp [h.len_buffer]
        len_fft := h.len_fft
        lock := by have := h.lock; rw [hc] at this; simpa [CapturePC.holds] using this
        exclusive := by simp [hm]
        capture_prefix := by
          intro k' hk'
          simp only [CapturePC.copying.injEq] at hk'
          subst hk'
          exact ⟨hk, set_prefix _ _ k (by rw [h.len_buffer]; exact hk)
            (by rw [hframes]; exact hk) hpre⟩
        buffer_whole := by intro hh; simp [CapturePC.holds] at hh
        flag_set := h.flag_set
        capture_flag := by intro hh; simp at hh
        main_locking := h.main_locking
        main_prefix := by intro j hj; exact absurd hj (hmc j)
        log := h.log }
    · rw [if_neg hk]
      have hkn' : k = n := by omega
      subst hkn'
      have hwhole : s.audio_buffer = frames s.published :=
        eq_of_prefix _ _ k h.len_buffer (hframes _) hpre
      obtain ⟨js, hj1, hj2, hj3⟩ := h.log
      exact {
        len_buffer := h.len_buffer
        len_fft := h.len_fft
        lock := by simp [CapturePC.holds, hm]
        exclusive := by simp [CapturePC.holds]
        capture_prefix := by intro k' hk'; simp at hk'
        buffer_whole := by intro _ _; simpa using hwhole
        flag_set := by intro _; simp
        capture_flag := by intro _; simp
        main_locking := by intro _; simp
        main_prefix := by intro j hj; exact absurd hj (hmc j)
        log := ⟨js, hj1, fun j hj => Nat.lt_succ_of_lt (hj2 j hj), hj3⟩ }
  | flag =>
    simp only
    have hp := h.capture_flag hc
    exact {
      len_buffer := h.len_buffer
      len_fft := h.len_fft
      lock := by have := h.lock; rw [hc] at this; simpa [CapturePC.holds] using this
      exclusive := by simp [CapturePC.holds]
      capture_prefix := by intro k' hk'; simp at hk'
      buffer_whole := by
        intro _ hpub
        exact h.buffer_whole (by rw [hc]; rfl) hpub
      flag_set := by intro _; exact hp
      capture_flag := by intro hh; simp at hh
      main_locking := h.main_locking
      main_prefix := h.main_prefix
      log := h.log }

theorem main_step_inv (frames : Nat → List ℚ) (n : Nat) (hframes : ∀ j, (frames j).length = n)
    (s : Threads) (h : HandoffInv frames n s) : HandoffInv frames n (main_step n s) := by
  unfold main_step
  cases hc : s.main with
  | polling =>
    simp only
    by_cases hd : s.new_data ≠ 0
    · rw [if_pos hd]
      exact {
        len_buffer := h.len_buffer
        len_fft := h.len_fft
        lock := by have := h.lock; rw [hc] at this; simpa [MainPC.holds] using this
        exclusive := by simp [MainPC.holds]
        capture_prefix := h.capture_prefix
        buffer_whole := h.buffer_whole
        flag_set := h.flag_set
        capture_flag := h.capture_flag
        main_locking := by intro _; exact h.flag_set hd
        main_prefix := by intro k hk; simp at hk
        log := h.log }
    · rw [if_neg hd]; exact h
  | locking =>
    simp only
    have hp := h.main_locking hc
    by_cases hl : s.locked = true
    · rw [if_pos hl]; exact h
    · rw [if_neg hl]
      have hlock := h.lock
      rw [hc] at hlock
      have hcap : s.capture.holds = false := by
        cases hch : s.capture.holds with
        | false => rfl
        | true => rw [hch] at hlock; simp at hlock; exact absurd hlock hl
      exact {
        len_buffer := h.len_buffer
        len_fft := h.len_fft
        lock := by simp [MainPC.holds]
        exclusive := by simp [hcap]
        capture_prefix := h.capture_prefix
        buffer_whole := h.buffer_whole
        flag_set := h.flag_set
        capture_flag := h.capture_flag
        main_locking := by intro hh; simp at hh
        main_prefix := by
          intro k hk
          simp only [MainPC.copying.injEq] at hk
          subst hk
          exact ⟨hp, Nat.zero_le _, fun i hi => absurd hi (Nat.not_lt_zero i)⟩
        log := h.log }
  | copying k =>
    simp only
    obtain ⟨hp, hkn, hpre⟩ := h.main_prefix k hc
    have hcap : s.capture.holds = false := by
      cases hch : s.capture.holds with
      | false => rfl
      | true => exact absurd ⟨hch, by rw [hc]; rfl⟩ h.exclusive
    have hbuf : s.audio_buffer = frames (s.published - 1) := h.buffer_whole hcap hp
    by_cases hk : k < n
    · rw [if_pos hk]
      exact {
        len_buffer := h.len_buffer
        len_fft := by simp [h.len_fft]
        lock := by have := h.lock; rw [hc] at this; simpa [MainPC.holds] using this
        exclusive := by simp [hcap]
        capture_prefix := h.capture_prefix
        buffer_whole := h.buffer_whole
        flag_set := h.flag_set
        capture_flag := h.capture_flag
        main_locking := by intro hh; simp at hh
        main_prefix := by
          intro k' hk'
          simp only [MainPC.copying.injEq] at hk'
          subst hk'
          refine ⟨hp, hk, ?_⟩
          simp only [hbuf]
          exact set_prefix _ _ k (by rw [h.len_fft]; exact hk) (by rw [hframes]; exact hk) hpre
        log := h.log }
    · rw [if_neg hk]
      have hkn' : k = n := by omega
      subst hkn'
      have hwhole : s.fft_in = frames (s.published - 1) :=
        eq_of_prefix _ _ k h.len_fft (hframes _) hpre
      obtain ⟨js, hj1, hj2, hj3⟩ := h.log
      exact {
        len_buffer := h.len_buffer
        len_fft := h.len_fft
        lock := by simp [MainPC.holds, hcap]
        exclusive := by simp [MainPC.holds]
        capture_prefix := h.capture_prefix
        buffer_whole := h.buffer_whole
        flag_set := h.flag_set
        capture_flag := h.capture_flag
        main_locking := by intro hh; simp at hh
        main_prefix := by intro k' hk'; simp at hk'
        log := by
          refine ⟨js ++ [s.published - 1], ?_, ?_, ?_⟩
          · rw [List.pairwise_append]
            refine ⟨hj1, List.pairwise_singleton _ _, ?_⟩
            intro a ha b hb
            simp only [List.mem_singleton] at hb
            have := hj2 a ha
            omega
          · intro j hj
            rcases List.mem_append.1 hj with hj' | hj'
            · exact hj2 j hj'
            · simp only [List.mem_singleton] at hj'
              show j < s.published
              omega
          · simp [hj3, hwhole] }

theorem run_threads_inv (frames : Nat → List ℚ) (n : Nat) (hframes : ∀ j, (frames j).length = n)
    (schedule : List Thread) :
    ∀ s : Threads, HandoffInv frames n s → HandoffInv frames n (run_threads frames n schedule s) := by
  induction schedule with
  | nil => intro s h; exact h
  | cons t ts ih =>
    intro s h
    have hs : HandoffInv frames n (thread_step frames n s t) := by
      cases t with
      | capture => exact capture_step_inv frames n hframes s h
      | main => exact main_step_inv frames n hframes s h
    exact ih _ hs

/-- C18: under every interleaving of the capture thread (publishing the frames
`frames 0, frames 1, ...`, each of `n` samples) and the main thread, the mutex
is never held by both threads, and every content of `fft_in` that the main
thread obtains from its copy is one whole published frame; the frames obtained
are in non-decreasing publication order. -/
theorem handoff_no_torn_read (frames : Nat → List ℚ) (n : Nat) (fft_in₀ : List ℚ)
    (schedule : List Thread) (hframes : ∀ j, (frames j).length = n)
    (h0 : fft_in₀.length = n) :
    ¬ ((run_threads frames n schedule (Threads.init n fft_in₀)).capture.holds = true ∧
        (run_threads frames n schedule (Threads.init n fft_in₀)).main.holds = true) ∧
      ∃ js : List Nat, js.Pairwise (· ≤ ·) ∧
        (∀ j ∈ js, j < (run_threads frames n schedule (Threads.init n fft_in₀)).published) ∧
        (run_threads frames n schedule (Threads.init n fft_in₀)).consumed = js.map frames := by
  have h := run_threads_inv frames n hframes schedule _ (handoffInv_init frames n fft_in₀ h0)
  exact ⟨h.exclusive, h.log⟩

/-- Witness of C18: two-sample frames under `sampleSchedule`, in which the main
thread obtains frame 1 twice and never frame 0. -/
theorem handoff_no_torn_read_witness :
    ¬ ((run_threads rampFrames 2 sampleSchedule (Threads.init 2 [7, 7])).capture.holds = true ∧
        (run_threads rampFrames 2 sampleSchedule (Threads.init 2 [7, 7])).main.holds = true) ∧
      ∃ js : List Nat, js.Pairwise (· ≤ ·) ∧
        (∀ j ∈ js, j < (run_threads rampFrames 2 sampleSchedule (Threads.init 2 [7, 7])).published) ∧
        (run_threads rampFrames 2 sampleSchedule (Threads.init 2 [7, 7])).consumed =
          js.map rampFrames :=
  handoff_no_torn_read rampFrames 2 [7, 7] sampleSchedule (fun _ => rfl) rfl

/-- The run of `sampleSchedule`: two frames published, frame 1 obtained twice. -/
theorem sampleSchedule_run :
    (run_threads rampFrames 2 sampleSchedule (Threads.init 2 [7, 7])).published = 2 ∧
      (run_threads rampFrames 2 sampleSchedule (Threads.init 2 [7, 7])).consumed =
        [rampFrames 1, rampFrames 1] := by
  decide!

/-! ## The range of `fft_idx_to_note` on the examined bins -/

theorem fft_idx_to_note_eq_midi (i : Int) :
    fft_idx_to_note i = (fft_idx_to_note_midi i).map (fun m => Int.tmod m 12) := rfl

/-- From 8 Hz upward the MIDI number is defined and not negative. -/
theorem midi_note_nonneg (f : ℚ) (hf : 8 ≤ f) : ∃ m, midi_note f = some m ∧ 0 ≤ m := by
  have hx : 0 < f / A4_FREQUENCY := div_pos (by linarith) (by norm_num [A4_FREQUENCY])
  obtain ⟨n, hn, _, h2⟩ := round_12_log2_bounds _ hx
  refine ⟨n + A4_MIDI_NUMBER, by simp [midi_note, hn], ?_⟩
  by_contra hneg
  have hn70 : 2 * n + 1 ≤ -139 := by
    unfold A4_MIDI_NUMBER at hneg
    omega
  have hlow : (1 / 55 : ℚ) ≤ f / A4_FREQUENCY := by
    rw [A4_FREQUENCY, le_div_iff₀ (by norm_num)]
    linarith
  have h55 : (1 / 55 : ℚ) ^ 24 ≤ (f / A4_FREQUENCY) ^ 24 :=
    pow_le_pow_left₀ (by norm_num) hlow 24
  have hpow : (2 : ℚ) ^ (2 * n + 1) ≤ (2 : ℚ) ^ (-139 : Int) :=
    zpow_le_zpow_right₀ (by norm_num) hn70
  have hnum : (2 : ℚ) ^ (-139 : Int) ≤ (1 / 55 : ℚ) ^ 24 := by
    rw [zpow_neg, show ((139 : Int)) = ((139 : Nat) : Int) by rfl, zpow_natCast]
    norm_num
  exact lt_irrefl _ (lt_of_lt_of_le h2 (le_trans hpow (le_trans hnum h55)))

theorem truncated_frequency_ge (i : Int) (h3 : 3 ≤ i) :
    (8 : ℚ) ≤ ((Int.tdiv (i * SAMPLE_RATE) FRAMES_PER_BUF : Int) : ℚ) := by
  have h : (8 : Int) ≤ Int.tdiv (i * SAMPLE_RATE) FRAMES_PER_BUF := by
    unfold SAMPLE_RATE FRAMES_PER_BUF
    rw [Int.tdiv_eq_ediv (by omega) (by decide)]
    omega
  exact_mod_cast h

/-- C21: for every bin `i` with `3 ≤ i ≤ 1024`, which is exactly the range
`min_index ≤ i < N_out` of the loop of `detect_notes`, the MIDI number computed
in `fft_idx_to_note` is defined and not negative, `fft_idx_to_note i` is a
number from 0 to 11, and the iteration of the detection loop for `i` completes
on 12-element arrays, writing inside them. -/
theorem fft_idx_to_note_in_range (i : Int) (h3 : 3 ≤ i) (h1024 : i ≤ 1024) :
    (min_index ≤ i ∧ i < N_out) ∧
      ∃ m c : Int, fft_idx_to_note_midi i = some m ∧ 0 ≤ m ∧
        fft_idx_to_note i = some c ∧ 0 ≤ c ∧ c < 12 ∧
        ∀ (mag : Int → ℚ) (st : NoteArrays),
          st.notes_detected.length = 12 → st.notes_magnitude.length = 12 →
          ∃ st', detect_step mag st i = some st' ∧
            st'.notes_detected.length = 12 ∧ st'.notes_magnitude.length = 12 ∧
            (mag i > (MIN_MAGNITUDE : ℚ) →
              c.toNat < st.notes_detected.length ∧ c.toNat < st.notes_magnitude.length ∧
              st'.notes_detected = st.notes_detected.set c.toNat true ∧
              st'.notes_magnitude = st.notes_magnitude.set c.toNat (mag i)) := by
  obtain ⟨m, hm, hm0⟩ := midi_note_nonneg _ (truncated_frequency_ge i h3)
  have hmidi : fft_idx_to_note_midi i = some m := hm
  have hnote : fft_idx_to_note i = some (Int.tmod m 12) := by
    rw [fft_idx_to_note_eq_midi, hmidi]; rfl
  have hr : 0 ≤ Int.tmod m 12 ∧ Int.tmod m 12 < 12 := by
    rw [tmod_eq_pitch_class m hm0]
    exact pitch_class_range m
  refine ⟨by rw [min_index_eq, N_out_eq]; omega, m, Int.tmod m 12, hmidi, hm0, hnote,
    hr.1, hr.2, ?_⟩
  intro mag st hd hmg
  by_cases hgt : mag i > (MIN_MAGNITUDE : ℚ)
  · refine ⟨{ notes_detected := st.notes_detected.set (Int.tmod m 12).toNat true,
              notes_magnitude := st.notes_magnitude.set (Int.tmod m 12).toNat (mag i) },
      by simp only [detect_step, if_pos hgt, hnote, if_pos hr], by simp [hd],
      by simp [hmg], fun _ => ⟨by omega, by omega, rfl, rfl⟩⟩
  · exact ⟨st, by simp only [detect_step, if_neg hgt], hd, hmg, fun h => absurd h hgt⟩

/-- Witness of C21, at bin 3. -/
theorem fft_idx_to_note_in_range_witness :
    (min_index ≤ 3 ∧ (3 : Int) < N_out) ∧
      ∃ m c : Int, fft_idx_to_note_midi 3 = some m ∧ 0 ≤ m ∧
        fft_idx_to_note 3 = some c ∧ 0 ≤ c ∧ c < 12 ∧
        ∀ (mag : Int → ℚ) (st : NoteArrays),
          st.notes_detected.length = 12 → st.notes_magnitude.length = 12 →
          ∃ st', detect_step mag st 3 = some st' ∧
            st'.notes_detected.length = 12 ∧ st'.notes_magnitude.length = 12 ∧
            (mag 3 > (MIN_MAGNITUDE : ℚ) →
              c.toNat < st.notes_detected.length ∧ c.toNat < st.notes_magnitude.length ∧
              st'.notes_detected = st.notes_detected.set c.toNat true ∧
              st'.notes_magnitude = st.notes_magnitude.set c.toNat (mag 3)) :=
  fft_idx_to_note_in_range 3 (by decide) (by decide)

/-- The MIDI number and the note of the first and the last examined bin. -/
theorem fft_idx_to_note_end_bins :
    fft_idx_to_note_midi 3 = some 36 ∧ fft_idx_to_note 3 = some 0 ∧
      fft_idx_to_note_midi 1024 = some 137 ∧ fft_idx_to_note 1024 = some 5 := by
  decide!

/-! ## Injectivity of the encoder of `show` -/

theorem decodeColor_encodeColor : ∀ c : Nat, c < 256 → decodeColor (encodeColor c) = c := by
  decide

theorem encodeColor_length (c : Nat) : (encodeColor c).length = 8 := by
  simp [encodeColor]

theorem decodePixel_encodePixel (p : Pixel) (hp : p.wf) : decodePixel (encodePixel p) = p := by
  obtain ⟨hr, hg, hb⟩ := hp
  have e1 : (encodePixel p).take 8 = encodeColor p.g := by
    unfold encodePixel
    rw [List.append_assoc, List.take_left' (encodeColor_length _)]
  have e2 : ((encodePixel p).drop 8).take 8 = encodeColor p.r := by
    unfold encodePixel
    rw [List.append_assoc, List.drop_left' (encodeColor_length _),
      List.take_left' (encodeColor_length _)]
  have e3 : ((encodePixel p).drop 16).take 8 = encodeColor p.b := by
    unfold encodePixel
    have h16 : (encodeColor p.g ++ encodeColor p.r).length = 16 := by
      simp [encodeColor_length]
    rw [List.drop_left' h16]
    exact List.take_of_length_le (by rw [encodeColor_length])
  cases p with
  | mk r g b =>
    simp only [decodePixel, e1, e2, e3]
    simp only at hr hg hb
    rw [decodeColor_encodeColor r hr, decodeColor_encodeColor g hg,
      decodeColor_encodeColor b hb]

theorem recover_chunks_flatMap (ps : List Pixel) (hps : ∀ p ∈ ps, p.wf) :
    recover_chunks ps.length (ps.flatMap encodePixel) = ps := by
  induction ps with
  | nil => rfl
  | cons p ps ih =>
    have hp : p.wf := hps p (List.mem_cons_self _ _)
    have hrest : ∀ q ∈ ps, q.wf := fun q hq => hps q (List.mem_cons_of_mem _ hq)
    simp only [List.length_cons, recover_chunks, List.flatMap_cons,
      List.take_left' (encodePixel_length p), List.drop_left' (encodePixel_length p),
      decodePixel_encodePixel p hp, ih hrest]

theorem recover_show (s : Pi5NeoCpp) (hs : ∀ p ∈ s.pixels, p.wf) :
    recover_pixels (show_spi_buffer s) = s.pixels := by
  unfold recover_pixels
  rw [show_spi_buffer_length, show_spi_buffer_eq, Nat.mul_div_cancel_left _ (by decide)]
  exact recover_chunks_flatMap s.pixels hs

/-- C22: on pixels whose components are bytes, the encoding of `show` is
injective: two pixel buffers give the same bytes to `write` exactly when they
are equal, and the pixel buffer is read back from the written bytes by
`recover_pixels`. -/
theorem show_injective (s t : Pi5NeoCpp) (hs : ∀ p ∈ s.pixels, p.wf)
    (ht : ∀ p ∈ t.pixels, p.wf) :
    (show_spi_buffer s = show_spi_buffer t ↔ s.pixels = t.pixels) ∧
      recover_pixels (show_spi_buffer s) = s.pixels := by
  refine ⟨⟨fun h => ?_, fun h => ?_⟩, recover_show s hs⟩
  · rw [← recover_show s hs, ← recover_show t ht, h]
  · rw [show_spi_buffer_eq, show_spi_buffer_eq, h]

/-- Witness of C22: the red one-LED strip and the two-LED strip `twoStrip`. -/
theorem show_injective_witness :
    (show_spi_buffer redStrip = show_spi_buffer twoStrip ↔ redStrip.pixels = twoStrip.pixels) ∧
      recover_pixels (show_spi_buffer redStrip) = redStrip.pixels :=
  show_injective redStrip twoStrip (by decide) (by decide)

end Chromesthat
